import Mathlib

/-!
# Verification of the `pipeline`/`errmux` concurrency library

This file gives a shallow embedding of the Go packages `pipeline` and
`errmux` (files `pipeline.go`, `errmux/consumer.go`, `errmux/handler.go`)
and proves properties of the embedding.

Go `error` values are modelled as `Option E` for an abstract error
payload type `E`; Go's `nil` error is `none`.  Sequential functions are
embedded as Lean functions.  The concurrent parts (the `mergeErrors`
fan-in, the handler's consume loop, and the `Job.Run` worker runner) are
embedded as small-step transition systems: every goroutine of the source
becomes a component of a state structure, and every atomic action of a
goroutine (a channel send, a channel receive, a `select` poll, a
`sync.Once` body, ...) becomes a constructor of an inductive step
relation.  Reachability is `Relation.ReflTransGen` of the step relation.
-/

namespace Errmux

variable {E : Type}

/-! ## `errmux.DefaultConsumer` (errmux/consumer.go)

```go
type DefaultConsumer struct {
    err  error
    done bool
}
```
-/

/-- The state of an `errmux.DefaultConsumer`: the recorded first non-nil
error (`none` when no error was recorded) and the done flag. -/
structure DefaultConsumer (E : Type) where
  err : Option E
  done : Bool
deriving DecidableEq

/-- `NewDefaultConsumer` creates a new default consumer (zero value:
`err = nil`, `done = false`). -/
def NewDefaultConsumer : DefaultConsumer E := ⟨none, false⟩

/-- `DefaultConsumer.Consume`, translated from the Go `switch`:

```go
switch {
case c.done:
    ok = false
case err != nil:
    c.err = err
    c.done = true
    ok = false
default:
    ok = true
}
```

Returns the `ok` result together with the updated consumer state. -/
def DefaultConsumer.Consume (c : DefaultConsumer E) (err : Option E) :
    Bool × DefaultConsumer E :=
  if c.done then (false, c)
  else
    match err with
    | some e => (false, ⟨some e, true⟩)
    | none => (true, c)

/-- `DefaultConsumer.Err`: returns the first non-nil error consumed, or
nil if no error was found (`return c.err`). -/
def DefaultConsumer.Err (c : DefaultConsumer E) : Option E :=
  c.err

/-- Applying a whole sequence of `Consume` calls to a consumer,
returning the list of boolean results (in call order) and the final
consumer state. -/
def DefaultConsumer.consumeTrace (c : DefaultConsumer E) :
    List (Option E) → List Bool × DefaultConsumer E
  | [] => ([], c)
  | err :: rest =>
    let step := c.Consume err
    let tail := consumeTrace step.2 rest
    (step.1 :: tail.1, tail.2)

/-! ## The one-shot cancellation signal (`Handler.Cancel`, errmux/handler.go)

```go
func (h *Handler) Cancel() bool {
    ok := false
    h.tOnce.Do(func() {
        close(h.q)
        ok = true
    })
    return ok
}
```

`sync.Once.Do` runs the body at most once, ever, and serializes
concurrent callers; `close(h.q)` fires the signal.  The signal state is
a single `Bool` (`true` = `q` closed); one serialized `Cancel` call maps
the state to its result and the new state. -/

/-- One `Handler.Cancel` call on signal state `fired`: the `sync.Once`
body runs (closing `q` and setting `ok = true`) exactly when the `Once`
was not yet used. -/
def Cancel (fired : Bool) : Bool × Bool :=
  if fired then (false, true) else (true, true)

/-- The results of `n` serialized `Cancel` calls starting from signal
state `fired`.  Any concurrent set of `Cancel` calls (external callers
and the consume loop's internal firing alike) is serialized by the
`sync.Once` mutex into such a sequence. -/
def cancelResults (fired : Bool) : Nat → List Bool
  | 0 => []
  | n + 1 =>
    let step := Cancel fired
    step.1 :: cancelResults step.2 n

/-! ## The consume loop (`Handler.start`, errmux/handler.go)

```go
func (h *Handler) start() {
    done := false
    for err := range h.errs {
        if !done {
            if ok := h.c.Consume(err); !ok {
                h.Cancel()
                done = true
            }
        }
    }
    h.Cancel()
}
```

The loop itself is sequential; given the (arbitrarily interleaved) list
of values delivered by the merged stream before it closes, the loop is a
pure function of that list.  The consumer is abstract: any state type
`σ` with a `Consume` step. -/

/-- The observable outcome of one run of `Handler.start` over a merged
stream: final consumer state, the loop's `done` flag, the cancellation
signal (threaded through the `Cancel` calls), the number of `Cancel`
invocations made by the loop, the values passed to `Consume` (in call
order), and the number of values read from the merged stream. -/
structure StartResult (σ E : Type) where
  consumer : σ
  done : Bool
  q : Bool
  cancelCalls : Nat
  consumedVals : List (Option E)
  readCount : Nat
deriving DecidableEq

/-- `Handler.start`, translated from the Go loop above.  `c` is the
consumer state, `done` the loop flag, `q` the cancellation signal state,
`calls` an accumulator of `Cancel` invocations so far; the list argument
is the sequence of values read from the merged stream `h.errs` until it
closes. -/
def startLoop (Consume : σ → Option E → Bool × σ) (c : σ) (done : Bool) (q : Bool)
    (calls : Nat) : List (Option E) → StartResult σ E
  | [] =>
    -- the trailing `h.Cancel()` after the range ends
    ⟨c, done, (Cancel q).2, calls + 1, [], 0⟩
  | err :: rest =>
    if done then
      let r := startLoop Consume c done q calls rest
      { r with readCount := r.readCount + 1 }
    else
      let step := Consume c err
      if step.1 then
        let r := startLoop Consume step.2 false q calls rest
        { r with consumedVals := err :: r.consumedVals, readCount := r.readCount + 1 }
      else
        -- `h.Cancel(); done = true`
        let r := startLoop Consume step.2 true (Cancel q).2 (calls + 1) rest
        { r with consumedVals := err :: r.consumedVals, readCount := r.readCount + 1 }

/-- Spec-side characterization of the values the consume loop hands to
`Consume`: the longest leading segment of the stream on which `Consume`
keeps returning true, together with the first value it rejects (if
any).  Written from the spec's words, for comparison with `startLoop`. -/
def specConsumedSeg (Consume : σ → Option E → Bool × σ) (c : σ) :
    List (Option E) → List (Option E)
  | [] => []
  | err :: rest =>
    let step := Consume c err
    if step.1 then err :: specConsumedSeg Consume step.2 rest else [err]

/-- First non-nil element of a list of Go error values (spec-side, for
the `DefaultConsumer.Err` contract). -/
def firstSome : List (Option E) → Option E :=
  fun l => (l.filterMap id).head?

/-! ## Theorems about the pure components -/

theorem cancelResults_fired (m : Nat) :
    cancelResults true m = List.replicate m false := by
  induction m with
  | zero => rfl
  | succ k ih => simp [cancelResults, Cancel, ih, List.replicate]

/-- C2: exactly one `Cancel` call returns true.  In any serialized
sequence of `n ≥ 1` `Cancel` calls starting from the open signal (the
serialization of all concurrent external callers and the consume loop's
own internal firing, in any order), the first call returns true and
every later call returns false, so exactly one call returns true;
moreover every call made after the signal is already closed returns
false. -/
theorem cancel_once_spec (n : Nat) (h : 1 ≤ n) :
    Errmux.cancelResults false n = true :: List.replicate (n - 1) false ∧
    (Errmux.cancelResults false n).count true = 1 ∧
    (∀ m, Errmux.cancelResults true m = List.replicate m false) := by
  obtain ⟨k, rfl⟩ : ∃ k, n = k + 1 := ⟨n - 1, (Nat.succ_pred_eq_of_pos h).symm⟩
  refine ⟨?_, ?_, cancelResults_fired⟩
  · simp [cancelResults, Cancel, cancelResults_fired]
  · simp [cancelResults, Cancel, cancelResults_fired, List.count_replicate]

/-- C2 witness: on a fresh handler whose inputs never deliver (so the
consume loop never fires internally), the first, second and third
`Cancel` calls return true, false, false. -/
theorem cancel_once_spec_witness :
    Errmux.cancelResults false 3 = [true, false, false] := by
  have h := cancel_once_spec 3 (by decide)
  simpa using h.1

/-- C4: the `DefaultConsumer` contract.  `Consume` returns false if the
consumer is already done; otherwise, on a non-nil error it records the
error, sets the done flag and returns false; on a nil error it returns
true and leaves the state unchanged.  `Err` returns the recorded error,
and on any fresh run the recorded error is the first non-nil error
consumed (or nil if none). -/
theorem defaultConsumer_spec (c : DefaultConsumer E) (err : Option E) :
    (c.done = true → c.Consume err = (false, c)) ∧
    (c.done = false → ∀ e, err = some e → c.Consume err = (false, ⟨some e, true⟩)) ∧
    (c.done = false → err = none → c.Consume err = (true, c)) ∧
    c.Err = c.err ∧
    (∀ errs : List (Option E),
      ((NewDefaultConsumer : DefaultConsumer E).consumeTrace errs).2.Err = firstSome errs) := by
  refine ⟨?_, ?_, ?_, rfl, ?_⟩
  · intro h; simp [DefaultConsumer.Consume, h]
  · intro h e he; simp [DefaultConsumer.Consume, h, he]
  · intro h he; simp [DefaultConsumer.Consume, h, he]
  · intro errs
    have key : ∀ (errs : List (Option E)) (c : DefaultConsumer E), c.done = false →
        c.err = none → (c.consumeTrace errs).2.Err = firstSome errs := by
      intro errs
      induction errs with
      | nil => intro c h1 h2; simp [DefaultConsumer.consumeTrace, DefaultConsumer.Err, h2, firstSome]
      | cons e rest ih =>
        intro c h1 h2
        cases e with
        | none =>
          have : c.Consume none = (true, c) := by simp [DefaultConsumer.Consume, h1]
          simp only [DefaultConsumer.consumeTrace, this]
          simpa [firstSome] using ih c h1 h2
        | some v =>
          have hc : c.Consume (some v) = (false, ⟨some v, true⟩) := by
            simp [DefaultConsumer.Consume, h1]
          simp only [DefaultConsumer.consumeTrace, hc]
          have frozen : ∀ (l : List (Option E)) (d : DefaultConsumer E), d.done = true →
              (d.consumeTrace l).2 = d := by
            intro l
            induction l with
            | nil => intro d _; rfl
            | cons x xs ihx =>
              intro d hd
              have : d.Consume x = (false, d) := by simp [DefaultConsumer.Consume, hd]
              simp only [DefaultConsumer.consumeTrace, this]
              exact ihx d hd
          simp [frozen rest ⟨some v, true⟩ rfl, DefaultConsumer.Err, firstSome]
    exact key errs NewDefaultConsumer rfl rfl

/-- C4 witness: the three `Consume` branches and the `Err` contract at
concrete inputs. -/
theorem defaultConsumer_spec_witness :
    DefaultConsumer.Consume (⟨none, true⟩ : DefaultConsumer Nat) (some 3) = (false, ⟨none, true⟩) ∧
    DefaultConsumer.Consume (⟨none, false⟩ : DefaultConsumer Nat) (some 5) = (false, ⟨some 5, true⟩) ∧
    DefaultConsumer.Consume (⟨none, false⟩ : DefaultConsumer Nat) none = (true, ⟨none, false⟩) ∧
    ((NewDefaultConsumer : DefaultConsumer Nat).consumeTrace [none, some 7, some 8]).2.Err = some 7 := by
  refine ⟨(defaultConsumer_spec ⟨none, true⟩ (some 3)).1 rfl,
    (defaultConsumer_spec ⟨none, false⟩ (some 5)).2.1 rfl 5 rfl,
    (defaultConsumer_spec ⟨none, false⟩ (none : Option Nat)).2.2.1 rfl rfl, ?_⟩
  have h := ((defaultConsumer_spec (⟨none, false⟩ : DefaultConsumer Nat) none).2.2.2.2)
    [none, some 7, some 8]
  simpa [firstSome] using h

/-- C10: once the done flag is set, every later `Consume` call (with any
argument) returns false and leaves the consumer unchanged, so `Err`
returns the same recorded error forever after. -/
theorem defaultConsumer_frozen (c : DefaultConsumer E) (errs : List (Option E))
    (h : c.done = true) :
    c.consumeTrace errs = (List.replicate errs.length false, c) ∧
    (c.consumeTrace errs).2.Err = c.Err := by
  have key : ∀ (l : List (Option E)) (d : DefaultConsumer E), d.done = true →
      d.consumeTrace l = (List.replicate l.length false, d) := by
    intro l
    induction l with
    | nil => intro d _; rfl
    | cons x xs ihx =>
      intro d hd
      have : d.Consume x = (false, d) := by simp [DefaultConsumer.Consume, hd]
      simp [DefaultConsumer.consumeTrace, this, ihx d hd, List.replicate]
  refine ⟨key errs c h, ?_⟩
  rw [key errs c h]

/-- C10 witness. -/
theorem defaultConsumer_frozen_witness :
    ((⟨some 1, true⟩ : DefaultConsumer Nat).consumeTrace [none, some 2]
      = ([false, false], ⟨some 1, true⟩)) ∧
    ((⟨some 1, true⟩ : DefaultConsumer Nat).consumeTrace [none, some 2]).2.Err = some 1 := by
  have h := defaultConsumer_frozen (⟨some 1, true⟩ : DefaultConsumer Nat) [none, some 2] rfl
  exact ⟨by simpa using h.1, by simpa [DefaultConsumer.Err] using h.2⟩

/-- C3: the consume loop reads every value of the merged stream (the
read count equals the stream length); the values handed to `Consume`
are exactly the leading accepted segment plus the first rejected value,
so `Consume` is never invoked after it first returns false; and after
the stream closes the loop always fires cancellation (a no-op if
already fired), so the finished signal ends up set in every run, even
when `Consume` never rejected. -/
theorem startLoop_spec {σ : Type} (Consume : σ → Option E → Bool × σ) (c : σ)
    (errs : List (Option E)) :
    (startLoop Consume c false false 0 errs).consumedVals = specConsumedSeg Consume c errs ∧
    (startLoop Consume c false false 0 errs).readCount = errs.length ∧
    (startLoop Consume c false false 0 errs).q = true ∧
    1 ≤ (startLoop Consume c false false 0 errs).cancelCalls := by
  have discard : ∀ (l : List (Option E)) (d : σ) (q : Bool) (calls : Nat),
      startLoop Consume d true q calls l =
        ⟨d, true, (Cancel q).2, calls + 1, [], l.length⟩ := by
    intro l
    induction l with
    | nil => intro d q calls; rfl
    | cons x xs ihx => intro d q calls; simp [startLoop, ihx]
  have key : ∀ (l : List (Option E)) (d : σ) (q : Bool) (calls : Nat),
      (startLoop Consume d false q calls l).consumedVals = specConsumedSeg Consume d l ∧
      (startLoop Consume d false q calls l).readCount = l.length ∧
      (startLoop Consume d false q calls l).q = true ∧
      calls + 1 ≤ (startLoop Consume d false q calls l).cancelCalls := by
    intro l
    induction l with
    | nil =>
      intro d q calls
      refine ⟨rfl, rfl, ?_, Nat.le_refl _⟩
      cases q <;> simp [startLoop, Cancel]
    | cons x xs ihx =>
      intro d q calls
      have ih := ihx (Consume d x).2 q calls
      by_cases hstep : (Consume d x).1
      · refine ⟨?_, ?_, ?_, ?_⟩
        · simpa [startLoop, hstep, specConsumedSeg] using ih.1
        · simpa [startLoop, hstep] using ih.2.1
        · simpa [startLoop, hstep] using ih.2.2.1
        · have h4 := ih.2.2.2
          simp only [startLoop, hstep]
          simp only [Bool.false_eq_true, if_false, if_true]
          exact h4
      · refine ⟨?_, ?_, ?_, ?_⟩ <;>
          cases q <;> simp [startLoop, hstep, discard, specConsumedSeg, Cancel]
  have h := key errs c false 0
  exact ⟨h.1, h.2.1, h.2.2.1, h.2.2.2⟩

/-! ## `mergeErrors` as a transition system (errmux/handler.go)

```go
func mergeErrors(q <-chan struct{}, errs []<-chan error) <-chan error {
    var wg sync.WaitGroup
    out := make(chan error, len(errs))
    wg.Add(len(errs))
    for _, e := range errs {
        go func(ch <-chan error) {
            defer wg.Done()
            for err := range ch {
                select {
                case <-q:
                    return
                default:
                }
                out <- err
            }
        }(e)
    }
    go func() {
        wg.Wait()
        close(out)
    }()
    return out
}
```

One drain goroutine per input channel plus a closer goroutine.  A drain
goroutine's atomic actions: receive a value from its input (`wait` to
`hold`), poll `q` (`hold` to `done` when fired, otherwise to `fwd`),
send on `out` (`fwd` back to `wait`; blocks while `out`, whose capacity
is `len(errs)`, is full), or observe its input closed-and-empty and
return (`wait` to `done`).  `wg.Done` is folded into reaching `done`;
the closer's `wg.Wait(); close(out)` is the `closeOut` step, enabled
exactly when every drain goroutine has finished.  The environment
(producers, the handler, external cancellers) may send on an input,
close an input, fire `q`, or receive from `out`. -/

namespace Merge

/-- A Go error channel: queued values not yet received, and whether the
producer has closed it. -/
structure Chan (E : Type) where
  buf : List (Option E)
  closed : Bool
deriving DecidableEq

/-- The control state of one per-input drain goroutine of
`mergeErrors`. -/
inductive TaskState (E : Type) where
  | wait
  | hold (v : Option E)
  | fwd (v : Option E)
  | done
deriving DecidableEq

/-- Global state of one `mergeErrors` call: the cancellation signal `q`,
the input channels, the drain goroutines, the buffer of the output
channel, whether `out` has been closed, and (ghost) the values the
environment has received from `out`. -/
structure MState (E : Type) where
  q : Bool
  chans : List (Chan E)
  tasks : List (TaskState E)
  out : List (Option E)
  outClosed : Bool
  outTaken : List (Option E)
deriving DecidableEq

/-- The state right after `mergeErrors(q, errs)` returns, with input
channels in state `cs`: every drain goroutine at its loop head, `out`
empty and open, `q` not yet fired. -/
def mergeInit (cs : List (Chan E)) : MState E :=
  ⟨false, cs, cs.map fun _ => .wait, [], false, []⟩

/-- One atomic action of `mergeErrors` or its environment. -/
inductive MStep : MState E → MState E → Prop
  | envSend (s : MState E) (i : Nat) (v : Option E) (ch : Chan E) :
      s.chans[i]? = some ch → ch.closed = false →
      MStep s { s with chans := s.chans.set i ⟨ch.buf ++ [v], false⟩ }
  | envClose (s : MState E) (i : Nat) (ch : Chan E) :
      s.chans[i]? = some ch → ch.closed = false →
      MStep s { s with chans := s.chans.set i ⟨ch.buf, true⟩ }
  | fireQ (s : MState E) :
      s.q = false →
      MStep s { s with q := true }
  | read (s : MState E) (i : Nat) (ch : Chan E) (v : Option E) (rest : List (Option E)) :
      s.tasks[i]? = some .wait → s.chans[i]? = some ch → ch.buf = v :: rest →
      MStep s { s with chans := s.chans.set i ⟨rest, ch.closed⟩,
                       tasks := s.tasks.set i (.hold v) }
  | finish (s : MState E) (i : Nat) (ch : Chan E) :
      s.tasks[i]? = some .wait → s.chans[i]? = some ch → ch.buf = [] → ch.closed = true →
      MStep s { s with tasks := s.tasks.set i .done }
  | pollStop (s : MState E) (i : Nat) (v : Option E) :
      s.tasks[i]? = some (.hold v) → s.q = true →
      MStep s { s with tasks := s.tasks.set i .done }
  | pollPass (s : MState E) (i : Nat) (v : Option E) :
      s.tasks[i]? = some (.hold v) → s.q = false →
      MStep s { s with tasks := s.tasks.set i (.fwd v) }
  | fwdSend (s : MState E) (i : Nat) (v : Option E) :
      s.tasks[i]? = some (.fwd v) → s.out.length < s.chans.length →
      MStep s { s with out := s.out ++ [v], tasks := s.tasks.set i .wait }
  | closeOut (s : MState E) :
      (∀ t ∈ s.tasks, t = .done) → s.outClosed = false →
      MStep s { s with outClosed := true }
  | envRecv (s : MState E) (v : Option E) (rest : List (Option E)) :
      s.out = v :: rest →
      MStep s { s with out := rest, outTaken := s.outTaken ++ [v] }

/-- Reachability in the `mergeErrors` system. -/
def MReach : MState E → MState E → Prop := Relation.ReflTransGen MStep

end Merge

/-- Invariance along `Relation.ReflTransGen`: standard induction. -/
theorem reach_invariant {α : Type} {R : α → α → Prop} {P : α → Prop} {a b : α}
    (h : Relation.ReflTransGen R a b) (h0 : P a)
    (hstep : ∀ x y, P x → R x y → P y) : P b := by
  induction h with
  | refl => exact h0
  | tail _ hxy ih => exact hstep _ _ ih hxy

namespace Merge

/-- The inductive invariant backing the `mergeErrors` closing claim. -/
def MInv (cs : List (Chan E)) (s : MState E) : Prop :=
  s.tasks.length = cs.length ∧ s.chans.length = cs.length ∧
  (s.outClosed = true → ∀ t ∈ s.tasks, t = .done) ∧
  (cs = [] → s.out = [] ∧ s.outTaken = [])

theorem mInv_holds (cs : List (Chan E)) (s : MState E) (h : MReach (mergeInit cs) s) :
    MInv cs s := by
  refine reach_invariant h ⟨by simp [mergeInit], by simp [mergeInit], ?_, ?_⟩ ?_
  · intro hcl; simp [mergeInit] at hcl
  · intro _; exact ⟨rfl, rfl⟩
  · intro x y hx hxy
    obtain ⟨hlen, hclen, hcl, hnil⟩ := hx
    cases hxy with
    | envSend i v ch h1 h2 =>
      exact ⟨by simpa using hlen, by simpa using hclen, by simpa using hcl, by simpa using hnil⟩
    | envClose i ch h1 h2 =>
      exact ⟨by simpa using hlen, by simpa using hclen, by simpa using hcl, by simpa using hnil⟩
    | fireQ h1 =>
      exact ⟨hlen, hclen, hcl, hnil⟩
    | read i ch v rest h1 h2 h3 =>
      refine ⟨by simpa using hlen, by simpa using hclen, ?_, by simpa using hnil⟩
      intro hc
      exfalso
      have hmem : TaskState.wait (E := E) ∈ x.tasks := List.getElem?_mem h1
      have := hcl hc _ hmem
      simp at this
    | finish i ch h1 h2 h3 h4 =>
      refine ⟨by simpa using hlen, hclen, ?_, by simpa using hnil⟩
      intro hc t ht
      rcases List.mem_or_eq_of_mem_set ht with h' | h'
      · exact hcl hc t h'
      · exact h'
    | pollStop i v h1 h2 =>
      refine ⟨by simpa using hlen, hclen, ?_, by simpa using hnil⟩
      intro hc t ht
      rcases List.mem_or_eq_of_mem_set ht with h' | h'
      · exact hcl hc t h'
      · exact h'
    | pollPass i v h1 h2 =>
      refine ⟨by simpa using hlen, hclen, ?_, by simpa using hnil⟩
      intro hc
      exfalso
      have hmem : TaskState.hold v ∈ x.tasks := List.getElem?_mem h1
      have := hcl hc _ hmem
      simp at this
    | fwdSend i v h1 h2 =>
      refine ⟨by simpa using hlen, hclen, ?_, ?_⟩
      · intro hc
        exfalso
        have hmem : TaskState.fwd v ∈ x.tasks := List.getElem?_mem h1
        have := hcl hc _ hmem
        simp at this
      · intro hnil'
        exfalso
        have h0 : x.tasks.length = 0 := by rw [hlen, hnil']; rfl
        have he : x.tasks = [] := List.length_eq_zero.mp h0
        rw [he] at h1
        simp at h1
    | closeOut h1 h2 =>
      exact ⟨hlen, hclen, fun _ => h1, by simpa using hnil⟩
    | envRecv v rest h1 =>
      refine ⟨hlen, hclen, hcl, ?_⟩
      intro hnil'
      exfalso
      have hz := (hnil hnil').1
      rw [hz] at h1
      simp at h1

/-- C5: the output of `mergeErrors` over `k` input channels is closed
only when every per-input drain goroutine has finished, and whenever all
of them have finished and the output is still open, the closer's
`close(out)` step is enabled (nothing else is waited on); in particular
for `k = 0` every reachable state already has all (zero) drain
goroutines finished, the closing step is enabled from the initial state
onward, and no value is ever buffered in or received from the output. -/
theorem merge_close_iff (cs : List (Chan E)) (s : MState E)
    (h : MReach (mergeInit cs) s) :
    (s.outClosed = true → ∀ t ∈ s.tasks, t = TaskState.done) ∧
    ((∀ t ∈ s.tasks, t = TaskState.done) → s.outClosed = false →
      MStep s { s with outClosed := true }) ∧
    (cs = [] → (∀ t ∈ s.tasks, t = TaskState.done) ∧ s.out = [] ∧ s.outTaken = [] ∧
      (s.outClosed = true ∨ MStep s { s with outClosed := true })) := by
  obtain ⟨hlen, hclen, hcl, hnil⟩ := mInv_holds cs s h
  refine ⟨hcl, fun hall hop => MStep.closeOut s hall hop, ?_⟩
  intro hcs
  have htasks : s.tasks = [] := by
    apply List.length_eq_zero.mp
    rw [hlen, hcs]; rfl
  have hall : ∀ t ∈ s.tasks, t = TaskState.done := by
    rw [htasks]; intro t ht; simp at ht
  refine ⟨hall, (hnil hcs).1, (hnil hcs).2, ?_⟩
  by_cases hc : s.outClosed = true
  · exact Or.inl hc
  · exact Or.inr (MStep.closeOut s hall (by simpa using hc))

/-- C5 witness: the zero-input instance at its initial state. -/
theorem merge_close_iff_witness :
    ((mergeInit ([] : List (Chan Nat))).outClosed = true →
      ∀ t ∈ (mergeInit ([] : List (Chan Nat))).tasks, t = TaskState.done) ∧
    (mergeInit ([] : List (Chan Nat))).out = [] ∧
    (mergeInit ([] : List (Chan Nat))).outTaken = [] ∧
    MStep (mergeInit ([] : List (Chan Nat)))
      { mergeInit ([] : List (Chan Nat)) with outClosed := true } := by
  have h := merge_close_iff ([] : List (Chan Nat)) (mergeInit [])
    Relation.ReflTransGen.refl
  obtain ⟨h1, _, h3⟩ := h
  obtain ⟨hall, hout, htaken, hcl⟩ := h3 rfl
  refine ⟨h1, hout, htaken, ?_⟩
  rcases hcl with hc | hc
  · simp [mergeInit] at hc
  · exact hc

end Merge

/-! ## The full handler: `mergeErrors` composed with the consume loop

`NewHandler(c, errs...)` wires `mergeErrors(q, errs)` to the consume
loop `h.start()` over the shared one-shot signal `q`.  This system
instantiates the merger for input channels that are already populated
and closed (each drain goroutine owns the fixed remaining list of its
input), and adds the consume-loop goroutine as a reader of `out`:

* drain goroutine `i`: `wait` (at the range head), `hold v` (received
  `v`, about to poll `q`), `fwd v` (poll passed, sending on `out`),
  `done` (returned);
* the closer closes `out` once every drain goroutine is done;
* the consume loop reads `out` to exhaustion, passing each value to
  `Consume` until the first rejection (`sdone`), after which it only
  discards; on rejection and again after `out` is drained and closed it
  calls `h.Cancel()` (fires `q`); `sfin` marks the loop's return.

The merger is parametric in the channel element type, so the model
carries an abstract element type `α`; for provenance bookkeeping the
elements can be instantiated with origin-tagged values. -/

namespace HandlerSys

/-- Control state of one per-input drain goroutine. -/
inductive HPhase (α : Type) where
  | wait
  | hold (v : α)
  | fwd (v : α)
  | done
deriving DecidableEq

/-- One drain goroutine together with the remaining (already closed)
contents of its input channel. -/
structure HTask (α : Type) where
  pending : List α
  ph : HPhase α
deriving DecidableEq

/-- Global state of `NewHandler`'s machinery: signal `q`, drain
goroutines, the `out` buffer (capacity = number of inputs) and its
closed flag, the consumer state, the consume loop's `done` flag
(`sdone`), whether the loop has returned (`sfin`), and (ghost) the
values passed to `Consume` in call order. -/
structure HState (σ α : Type) where
  q : Bool
  tasks : List (HTask α)
  out : List α
  outClosed : Bool
  cons : σ
  sdone : Bool
  sfin : Bool
  consumed : List α
deriving DecidableEq

/-- The state right after `NewHandler(c0, ins...)` returns, with every
input channel pre-populated and closed. -/
def hInit {σ α : Type} (c0 : σ) (ins : List (List α)) : HState σ α :=
  ⟨false, ins.map fun l => ⟨l, .wait⟩, [], false, c0, false, false, []⟩

variable {σ α : Type}

/-- One atomic action of the handler's goroutines (no external
callers). -/
inductive HStep (Consume : σ → α → Bool × σ) : HState σ α → HState σ α → Prop
  | read (s : HState σ α) (i : Nat) (t : HTask α) (v : α) (rest : List α) :
      s.tasks[i]? = some t → t.ph = .wait → t.pending = v :: rest →
      HStep Consume s { s with tasks := s.tasks.set i ⟨rest, .hold v⟩ }
  | finish (s : HState σ α) (i : Nat) (t : HTask α) :
      s.tasks[i]? = some t → t.ph = .wait → t.pending = [] →
      HStep Consume s { s with tasks := s.tasks.set i ⟨[], .done⟩ }
  | pollStop (s : HState σ α) (i : Nat) (t : HTask α) (v : α) :
      s.tasks[i]? = some t → t.ph = .hold v → s.q = true →
      HStep Consume s { s with tasks := s.tasks.set i ⟨t.pending, .done⟩ }
  | pollPass (s : HState σ α) (i : Nat) (t : HTask α) (v : α) :
      s.tasks[i]? = some t → t.ph = .hold v → s.q = false →
      HStep Consume s { s with tasks := s.tasks.set i ⟨t.pending, .fwd v⟩ }
  | fwdSend (s : HState σ α) (i : Nat) (t : HTask α) (v : α) :
      s.tasks[i]? = some t → t.ph = .fwd v → s.out.length < s.tasks.length →
      HStep Consume s { s with out := s.out ++ [v], tasks := s.tasks.set i ⟨t.pending, .wait⟩ }
  | closeOut (s : HState σ α) :
      (∀ t ∈ s.tasks, t.ph = .done) → s.outClosed = false →
      HStep Consume s { s with outClosed := true }
  | sDiscard (s : HState σ α) (v : α) (rest : List α) :
      s.sfin = false → s.sdone = true → s.out = v :: rest →
      HStep Consume s { s with out := rest }
  | sAccept (s : HState σ α) (v : α) (rest : List α) (c' : σ) :
      s.sfin = false → s.sdone = false → s.out = v :: rest → Consume s.cons v = (true, c') →
      HStep Consume s { s with out := rest, cons := c', consumed := s.consumed ++ [v] }
  | sReject (s : HState σ α) (v : α) (rest : List α) (c' : σ) :
      s.sfin = false → s.sdone = false → s.out = v :: rest → Consume s.cons v = (false, c') →
      HStep Consume s { s with out := rest, cons := c', consumed := s.consumed ++ [v],
                               q := true, sdone := true }
  | sFinish (s : HState σ α) :
      s.sfin = false → s.out = [] → s.outClosed = true →
      HStep Consume s { s with q := true, sfin := true }

/-- One atomic action including an external `h.Cancel()` caller (the
`sync.Once` makes the external firing a single atomic transition; a
call on an already-fired signal changes nothing and is dropped). -/
def HCStep (Consume : σ → α → Bool × σ) (s t : HState σ α) : Prop :=
  HStep Consume s t ∨ t = { s with q := true }

/-- Reachability with no external `Cancel` callers. -/
def HReach (Consume : σ → α → Bool × σ) : HState σ α → HState σ α → Prop :=
  Relation.ReflTransGen (HStep Consume)

/-- Reachability allowing external `Cancel` callers. -/
def HCReach (Consume : σ → α → Bool × σ) : HState σ α → HState σ α → Prop :=
  Relation.ReflTransGen (HCStep Consume)

/-- No goroutine of the handler has an enabled action. -/
def HTerminal (Consume : σ → α → Bool × σ) (s : HState σ α) : Prop :=
  ∀ t, ¬ HStep Consume s t

/-! ### Provenance bookkeeping for the delivery claim

`mergeErrors` never inspects the values it forwards, so the system may
be instantiated with origin-tagged values `(i, e)`: the tag is ghost
provenance, the real channels carry only the error `e`. -/

/-- Tag every element of stream `i` with `i`. -/
def tagStream (i : Nat) (l : List (Option E)) : List (Nat × Option E) :=
  l.map fun e => (i, e)

/-- The subsequence of tagged values originating from stream `i`. -/
def ofStream (i : Nat) (l : List (Nat × Option E)) : List (Nat × Option E) :=
  l.filter fun p => p.1 == i

/-- The untagged values a consumer received from stream `i`, in the
order it received them. -/
def deliveredFrom (i : Nat) (l : List (Nat × Option E)) : List (Option E) :=
  (ofStream i l).map Prod.snd

/-- A consumer of Go errors, run on tagged values (it sees only the
error component; the tag is ghost). -/
def liftConsume (Consume : σ → Option E → Bool × σ) : σ → Nat × Option E → Bool × σ :=
  fun c v => Consume c v.2

/-- The value a drain goroutine has read but not yet forwarded, as a
list. -/
def holdList (t : HTask α) : List α :=
  match t.ph with
  | .hold v => [v]
  | .fwd v => [v]
  | _ => []

/-- Inductive invariant for the delivery claim: runs of the handler on
pre-populated closed inputs, with no external cancellers and a consumer
that accepts every delivered value. -/
structure InvC7 (ins : List (List (Option E))) (s : HState σ (Nat × Option E)) : Prop where
  hlen : s.tasks.length = ins.length
  hsd : s.sdone = false
  hqf : s.q = true → s.sfin = true
  hfin : s.sfin = true → s.out = [] ∧ s.outClosed = true
  hcl : s.outClosed = true → ∀ t ∈ s.tasks, t.ph = .done
  hout : ∀ p ∈ s.out, p.1 < ins.length
  hctag : ∀ p ∈ s.consumed, p.1 < ins.length
  htag : ∀ (i : Nat) (t : HTask (Nat × Option E)), s.tasks[i]? = some t →
    (∀ p ∈ t.pending, p.1 = i) ∧
      (∀ v : Nat × Option E, t.ph = .hold v ∨ t.ph = .fwd v → v.1 = i)
  hdone : ∀ (i : Nat) (t : HTask (Nat × Option E)), s.tasks[i]? = some t →
    t.ph = .done → t.pending = []
  hbal : ∀ (i : Nat) (l : List (Option E)) (t : HTask (Nat × Option E)),
    ins[i]? = some l → s.tasks[i]? = some t →
    ofStream i s.consumed ++ ofStream i s.out ++ holdList t ++ t.pending = tagStream i l

theorem init_task_eq (ins : List (List (Option E))) (c0 : σ) (i : Nat)
    (t : HTask (Nat × Option E))
    (ht : (hInit c0 (ins.mapIdx tagStream)).tasks[i]? = some t) :
    ∃ l, ins[i]? = some l ∧ t = ⟨tagStream i l, .wait⟩ := by
  simp only [hInit] at ht
  rw [List.getElem?_map, List.getElem?_mapIdx] at ht
  cases hins : ins[i]? with
  | none => rw [hins] at ht; simp at ht
  | some l =>
    rw [hins] at ht
    simp at ht
    exact ⟨l, rfl, ht.symm⟩

theorem invC7_init (ins : List (List (Option E))) (c0 : σ) :
    InvC7 ins (hInit c0 (ins.mapIdx tagStream)) := by
  refine ⟨?_, rfl, ?_, ?_, ?_, ?_, ?_, ?_, ?_, ?_⟩
  · simp [hInit]
  · intro h; simp [hInit] at h
  · intro h; simp [hInit] at h
  · intro h; simp [hInit] at h
  · intro p hp; simp [hInit] at hp
  · intro p hp; simp [hInit] at hp
  · intro i t ht
    obtain ⟨l, _, rfl⟩ := init_task_eq ins c0 i t ht
    constructor
    · intro p hp
      simp [tagStream] at hp
      obtain ⟨e, _, hpe⟩ := hp
      rw [← hpe]
    · intro v hv
      rcases hv with hv | hv <;> simp at hv
  · intro i t ht hph
    obtain ⟨l, _, rfl⟩ := init_task_eq ins c0 i t ht
    simp at hph
  · intro i l t hl ht
    obtain ⟨l', hl', rfl⟩ := init_task_eq ins c0 i t ht
    rw [hl] at hl'
    cases hl'
    simp [hInit, ofStream, holdList]

theorem ofStream_append (i : Nat) (l1 l2 : List (Nat × Option E)) :
    ofStream i (l1 ++ l2) = ofStream i l1 ++ ofStream i l2 := by
  simp [ofStream]

theorem ofStream_cons (i : Nat) (v : Nat × Option E) (l : List (Nat × Option E)) :
    ofStream i (v :: l) = ofStream i [v] ++ ofStream i l := by
  show ofStream i ([v] ++ l) = _
  exact ofStream_append i [v] l

theorem ofStream_single_mem (i : Nat) (v : Nat × Option E) (h : v.1 = i) :
    ofStream i [v] = [v] := by
  simp [ofStream, h]

theorem ofStream_single_not (i : Nat) (v : Nat × Option E) (h : ¬ v.1 = i) :
    ofStream i [v] = [] := by
  simp [ofStream, h]

theorem invC7_step (Consume : σ → Option E → Bool × σ)
    (ins : List (List (Option E)))
    (hacc : ∀ (c : σ) (v : Option E), v ∈ ins.flatten → (Consume c v).1 = true)
    (x y : HState σ (Nat × Option E)) (hx : InvC7 ins x)
    (hxy : HStep (liftConsume Consume) x y) : InvC7 ins y := by
  obtain ⟨hlen, hsd, hqf, hfin, hcl, hout, hctag, htag, hdone, hbal⟩ := hx
  cases hxy with
  | read i t v rest ht hw hp =>
    have hi : i < x.tasks.length := (List.getElem?_eq_some.mp ht).1
    have hvtag : v.1 = i := (htag i t ht).1 v (by rw [hp]; exact List.mem_cons_self _ _)
    refine ⟨by simpa using hlen, hsd, hqf, hfin, ?_, hout, hctag, ?_, ?_, ?_⟩
    · intro hoc
      have hdn := hcl hoc t (List.getElem?_mem ht)
      rw [hw] at hdn
      exact absurd hdn (by simp)
    · intro j u hu
      by_cases hji : j = i
      · subst hji
        rw [List.getElem?_set_self hi] at hu
        cases hu
        refine ⟨?_, ?_⟩
        · intro p hp'
          exact (htag j t ht).1 p (by rw [hp]; exact List.mem_cons_of_mem _ hp')
        · intro w hw'
          rcases hw' with hw' | hw'
          · cases hw'
            exact hvtag
          · cases hw'
      · rw [List.getElem?_set_ne (Ne.symm hji)] at hu
        exact htag j u hu
    · intro j u hu hph
      by_cases hji : j = i
      · subst hji
        rw [List.getElem?_set_self hi] at hu
        cases hu
        simp at hph
      · rw [List.getElem?_set_ne (Ne.symm hji)] at hu
        exact hdone j u hu hph
    · intro j l u hl hu
      by_cases hji : j = i
      · subst hji
        rw [List.getElem?_set_self hi] at hu
        cases hu
        have hb := hbal j l t hl ht
        rw [hp] at hb
        have hw0 : holdList t = [] := by simp [holdList, hw]
        rw [hw0] at hb
        rw [← hb]
        simp [holdList, List.append_assoc]
      · rw [List.getElem?_set_ne (Ne.symm hji)] at hu
        exact hbal j l u hl hu
  | finish i t ht hw hp =>
    have hi : i < x.tasks.length := (List.getElem?_eq_some.mp ht).1
    refine ⟨by simpa using hlen, hsd, hqf, hfin, ?_, hout, hctag, ?_, ?_, ?_⟩
    · intro hoc u hu
      rcases List.mem_or_eq_of_mem_set hu with h' | h'
      · exact hcl hoc u h'
      · rw [h']
    · intro j u hu
      by_cases hji : j = i
      · subst hji
        rw [List.getElem?_set_self hi] at hu
        cases hu
        refine ⟨by simp, ?_⟩
        intro w hw'
        rcases hw' with hw' | hw' <;> cases hw'
      · rw [List.getElem?_set_ne (Ne.symm hji)] at hu
        exact htag j u hu
    · intro j u hu hph
      by_cases hji : j = i
      · subst hji
        rw [List.getElem?_set_self hi] at hu
        cases hu
        rfl
      · rw [List.getElem?_set_ne (Ne.symm hji)] at hu
        exact hdone j u hu hph
    · intro j l u hl hu
      by_cases hji : j = i
      · subst hji
        rw [List.getElem?_set_self hi] at hu
        cases hu
        have hb := hbal j l t hl ht
        rw [hp] at hb
        have hw0 : holdList t = [] := by simp [holdList, hw]
        rw [hw0] at hb
        simpa [holdList] using hb
      · rw [List.getElem?_set_ne (Ne.symm hji)] at hu
        exact hbal j l u hl hu
  | pollStop i t v ht hh hq =>
    exact absurd (hcl (hfin (hqf hq)).2 t (List.getElem?_mem ht)) (by simp [hh])
  | pollPass i t v ht hh hq =>
    have hi : i < x.tasks.length := (List.getElem?_eq_some.mp ht).1
    have hvtag : v.1 = i := (htag i t ht).2 v (Or.inl hh)
    refine ⟨by simpa using hlen, hsd, hqf, hfin, ?_, hout, hctag, ?_, ?_, ?_⟩
    · intro hoc
      have hdn := hcl hoc t (List.getElem?_mem ht)
      rw [hh] at hdn
      exact absurd hdn (by simp)
    · intro j u hu
      by_cases hji : j = i
      · subst hji
        rw [List.getElem?_set_self hi] at hu
        cases hu
        refine ⟨(htag j t ht).1, ?_⟩
        intro w hw'
        rcases hw' with hw' | hw'
        · cases hw'
        · cases hw'
          exact hvtag
      · rw [List.getElem?_set_ne (Ne.symm hji)] at hu
        exact htag j u hu
    · intro j u hu hph
      by_cases hji : j = i
      · subst hji
        rw [List.getElem?_set_self hi] at hu
        cases hu
        simp at hph
      · rw [List.getElem?_set_ne (Ne.symm hji)] at hu
        exact hdone j u hu hph
    · intro j l u hl hu
      by_cases hji : j = i
      · subst hji
        rw [List.getElem?_set_self hi] at hu
        cases hu
        have hb := hbal j l t hl ht
        have hw0 : holdList t = [v] := by simp [holdList, hh]
        rw [hw0] at hb
        simpa [holdList] using hb
      · rw [List.getElem?_set_ne (Ne.symm hji)] at hu
        exact hbal j l u hl hu
  | fwdSend i t v ht hf hlt =>
    have hi : i < x.tasks.length := (List.getElem?_eq_some.mp ht).1
    have hvtag : v.1 = i := (htag i t ht).2 v (Or.inr hf)
    have hvlt : v.1 < ins.length := by rw [hvtag, ← hlen]; exact hi
    refine ⟨by simpa using hlen, hsd, hqf, ?_, ?_, ?_, hctag, ?_, ?_, ?_⟩
    · intro hsf
      exact absurd (hcl (hfin hsf).2 t (List.getElem?_mem ht)) (by simp [hf])
    · intro hoc
      have hdn := hcl hoc t (List.getElem?_mem ht)
      rw [hf] at hdn
      exact absurd hdn (by simp)
    · intro p hp'
      rcases List.mem_append.mp hp' with h' | h'
      · exact hout p h'
      · rw [List.mem_singleton.mp h']
        exact hvlt
    · intro j u hu
      by_cases hji : j = i
      · subst hji
        rw [List.getElem?_set_self hi] at hu
        cases hu
        refine ⟨(htag j t ht).1, ?_⟩
        intro w hw'
        rcases hw' with hw' | hw' <;> cases hw'
      · rw [List.getElem?_set_ne (Ne.symm hji)] at hu
        exact htag j u hu
    · intro j u hu hph
      by_cases hji : j = i
      · subst hji
        rw [List.getElem?_set_self hi] at hu
        cases hu
        simp at hph
      · rw [List.getElem?_set_ne (Ne.symm hji)] at hu
        exact hdone j u hu hph
    · intro j l u hl hu
      by_cases hji : j = i
      · subst hji
        rw [List.getElem?_set_self hi] at hu
        cases hu
        have hb := hbal j l t hl ht
        have hw0 : holdList t = [v] := by simp [holdList, hf]
        rw [hw0] at hb
        rw [ofStream_append, ofStream_single_mem j v hvtag, ← hb]
        simp [holdList, List.append_assoc]
      · rw [List.getElem?_set_ne (Ne.symm hji)] at hu
        have hb := hbal j l u hl hu
        rw [ofStream_append, ofStream_single_not j v (by rw [hvtag]; exact Ne.symm hji), ← hb]
        simp
  | closeOut hall hop =>
    refine ⟨hlen, hsd, hqf, ?_, ?_, hout, hctag, htag, hdone, hbal⟩
    · intro hsf
      exact ⟨(hfin hsf).1, rfl⟩
    · intro _
      exact hall
  | sDiscard v rest hsf0 hsd0 hout0 =>
    exact absurd hsd0 (by simp [hsd])
  | sAccept v rest c' hsf0 hsd0 hout0 hcv =>
    have hvlt : v.1 < ins.length := hout v (by rw [hout0]; exact List.mem_cons_self _ _)
    refine ⟨hlen, hsd, hqf, ?_, hcl, ?_, ?_, htag, hdone, ?_⟩
    · intro hsf
      rw [hsf0] at hsf
      exact absurd hsf (by simp)
    · intro p hp'
      exact hout p (by rw [hout0]; exact List.mem_cons_of_mem _ hp')
    · intro p hp'
      rcases List.mem_append.mp hp' with h' | h'
      · exact hctag p h'
      · rw [List.mem_singleton.mp h']
        exact hvlt
    · intro j l u hl hu
      have hb := hbal j l u hl hu
      rw [hout0, ofStream_cons] at hb
      rw [ofStream_append, ← hb]
      simp [List.append_assoc]
  | sReject v rest c' hsf0 hsd0 hout0 hcv =>
    exfalso
    have hvlt : v.1 < ins.length := hout v (by rw [hout0]; exact List.mem_cons_self _ _)
    obtain ⟨l, hl⟩ : ∃ l, ins[v.1]? = some l := ⟨_, List.getElem?_eq_getElem hvlt⟩
    have hti : v.1 < x.tasks.length := by rw [hlen]; exact hvlt
    obtain ⟨u, hu⟩ : ∃ u, x.tasks[v.1]? = some u := ⟨_, List.getElem?_eq_getElem hti⟩
    have hb := hbal v.1 l u hl hu
    have hvo : v ∈ ofStream v.1 x.out := by
      refine List.mem_filter.mpr ⟨?_, by simp⟩
      rw [hout0]
      exact List.mem_cons_self _ _
    have h1 : v ∈ ofStream v.1 x.consumed ++ ofStream v.1 x.out :=
      List.mem_append_right _ hvo
    have h2 := List.mem_append_left (holdList u) h1
    have h3 := List.mem_append_left u.pending h2
    rw [hb] at h3
    obtain ⟨e, hel, hev⟩ := List.mem_map.mp h3
    have hv2 : v.2 = e := by rw [← hev]
    have hflat : v.2 ∈ ins.flatten :=
      List.mem_flatten.mpr ⟨l, List.getElem?_mem hl, by rw [hv2]; exact hel⟩
    have hok := hacc x.cons v.2 hflat
    simp only [liftConsume] at hcv
    rw [hcv] at hok
    simp at hok
  | sFinish hsf0 hout0 hoc =>
    refine ⟨hlen, hsd, ?_, ?_, hcl, hout, hctag, htag, hdone, hbal⟩
    · intro _
      rfl
    · intro _
      exact ⟨hout0, hoc⟩

theorem invC7_reach (Consume : σ → Option E → Bool × σ)
    (ins : List (List (Option E))) (c0 : σ)
    (hacc : ∀ (c : σ) (v : Option E), v ∈ ins.flatten → (Consume c v).1 = true)
    (s : HState σ (Nat × Option E))
    (h : HReach (liftConsume Consume) (hInit c0 (ins.mapIdx tagStream)) s) :
    InvC7 ins s :=
  reach_invariant h (invC7_init ins c0)
    (fun x y hx hxy => invC7_step Consume ins hacc x y hx hxy)

/-- C7: on any family of already-populated, closed input channels none
of whose values the consumer rejects, when the handler's goroutines
have all finished (no action is enabled any more), every value of every
input channel has been handed to the consumer exactly once: for each
stream `i`, the subsequence of consumed values originating from stream
`i` equals stream `i`'s contents in order, and every consumed value
originates from one of the streams.  The interleaving across streams is
arbitrary (any reachable terminal state qualifies); order is preserved
within each single stream. -/
theorem handler_delivers_all (Consume : σ → Option E → Bool × σ)
    (ins : List (List (Option E))) (c0 : σ)
    (hacc : ∀ (c : σ) (v : Option E), v ∈ ins.flatten → (Consume c v).1 = true)
    (s : HState σ (Nat × Option E))
    (hreach : HReach (liftConsume Consume) (hInit c0 (ins.mapIdx tagStream)) s)
    (hterm : HTerminal (liftConsume Consume) s) :
    (∀ (i : Nat) (l : List (Option E)), ins[i]? = some l →
      deliveredFrom i s.consumed = l) ∧
    (∀ p ∈ s.consumed, p.1 < ins.length) ∧
    s.sfin = true ∧ s.outClosed = true := by
  have inv := invC7_reach Consume ins c0 hacc s hreach
  have hout0 : s.out = [] := by
    cases hox : s.out with
    | nil => rfl
    | cons v rest =>
      exfalso
      have hsf : s.sfin = false := by
        cases hsfx : s.sfin
        · rfl
        · have h0 := (inv.hfin hsfx).1
          rw [hox] at h0
          simp at h0
      rcases hcv : liftConsume Consume s.cons v with ⟨ok, c'⟩
      cases ok
      · exact hterm _ (HStep.sReject s v rest c' hsf inv.hsd hox hcv)
      · exact hterm _ (HStep.sAccept s v rest c' hsf inv.hsd hox hcv)
  have halldone : ∀ (i : Nat) (t : HTask (Nat × Option E)),
      s.tasks[i]? = some t → t.ph = .done := by
    intro i t ht
    have hi : i < s.tasks.length := (List.getElem?_eq_some.mp ht).1
    cases hph : t.ph with
    | wait =>
      exfalso
      cases hpd : t.pending with
      | nil => exact hterm _ (HStep.finish s i t ht hph hpd)
      | cons v rest => exact hterm _ (HStep.read s i t v rest ht hph hpd)
    | hold v =>
      exfalso
      cases hqx : s.q
      · exact hterm _ (HStep.pollPass s i t v ht hph hqx)
      · exact hterm _ (HStep.pollStop s i t v ht hph hqx)
    | fwd v =>
      exfalso
      refine hterm _ (HStep.fwdSend s i t v ht hph ?_)
      rw [hout0]
      exact Nat.zero_lt_of_lt hi
    | done => rfl
  have hall : ∀ t ∈ s.tasks, t.ph = .done := by
    intro t htm
    obtain ⟨i, hi⟩ := List.mem_iff_getElem?.mp htm
    exact halldone i t hi
  have hoc : s.outClosed = true := by
    cases hocx : s.outClosed
    · exact absurd (HStep.closeOut s hall hocx) (hterm _)
    · rfl
  have hsf : s.sfin = true := by
    cases hsfx : s.sfin
    · exact absurd (HStep.sFinish s hsfx hout0 hoc) (hterm _)
    · rfl
  refine ⟨?_, inv.hctag, hsf, hoc⟩
  intro i l hl
  have hti : i < s.tasks.length := by
    rw [inv.hlen]
    exact (List.getElem?_eq_some.mp hl).1
  obtain ⟨t, ht⟩ : ∃ t, s.tasks[i]? = some t := ⟨_, List.getElem?_eq_getElem hti⟩
  have hb := inv.hbal i l t hl ht
  have hphd := halldone i t ht
  have hpd := inv.hdone i t ht hphd
  have hh0 : holdList t = [] := by simp [holdList, hphd]
  rw [hout0, hpd, hh0] at hb
  have hbc : ofStream i s.consumed = tagStream i l := by simpa [ofStream] using hb
  rw [deliveredFrom, hbc, tagStream]
  simp

/-- C7 witness: the zero-stream instance with a trivial consumer drives
to its terminal state in two steps. -/
theorem handler_delivers_all_witness :
    (hInit () (([] : List (List (Option Nat))).mapIdx tagStream)
      : HState Unit (Nat × Option Nat)).sdone = false ∧
    ({ hInit () (([] : List (List (Option Nat))).mapIdx tagStream) with
        q := true, sfin := true, outClosed := true }
      : HState Unit (Nat × Option Nat)).sfin = true := by
  refine ⟨rfl, ?_⟩
  have hstep1 : HStep (liftConsume fun (c : Unit) (_ : Option Nat) => (true, c))
      (hInit () (([] : List (List (Option Nat))).mapIdx tagStream))
      { hInit () (([] : List (List (Option Nat))).mapIdx tagStream) with outClosed := true } := by
    refine HStep.closeOut _ ?_ rfl
    intro t htm
    simp [hInit] at htm
  have hstep2 : HStep (liftConsume fun (c : Unit) (_ : Option Nat) => (true, c))
      { hInit () (([] : List (List (Option Nat))).mapIdx tagStream) with outClosed := true }
      { hInit () (([] : List (List (Option Nat))).mapIdx tagStream) with
        q := true, sfin := true, outClosed := true } :=
    HStep.sFinish _ rfl rfl rfl
  have hreach : HReach (liftConsume fun (c : Unit) (_ : Option Nat) => (true, c))
      (hInit () (([] : List (List (Option Nat))).mapIdx tagStream))
      { hInit () (([] : List (List (Option Nat))).mapIdx tagStream) with
        q := true, sfin := true, outClosed := true } :=
    Relation.ReflTransGen.head hstep1 (Relation.ReflTransGen.head hstep2 Relation.ReflTransGen.refl)
  have hterm : HTerminal (liftConsume fun (c : Unit) (_ : Option Nat) => (true, c))
      { hInit () (([] : List (List (Option Nat))).mapIdx tagStream) with
        q := true, sfin := true, outClosed := true } := by
    intro t hstep
    cases hstep <;> simp_all [hInit]
  have h := handler_delivers_all (fun (c : Unit) (_ : Option Nat) => (true, c)) [] ()
    (fun c v hv => by simp at hv) _ hreach hterm
  exact h.2.2.1

/-! ### Repeated `Handler.Err` calls

`Err()` is `h.Wait()` (blocks until `q` is closed) followed by
`h.c.Err()`: a call completes exactly when `q` is fired, and returns the
consumer's error at that moment.  The following concrete run shows two
completed calls returning different values: one input channel already
holds the non-nil error `1` and is closed; the merger forwards the value
to `out`; an external `Cancel()` fires `q` (so `Err` calls complete from
now on); an `Err` call now returns nil; then the consume loop reads the
buffered value, the default consumer records it, and a later `Err` call
returns error `1`. -/

/-- C8 run, initial state: `NewHandler(NewDefaultConsumer(), ch)` with
`ch` already holding `some 1` and closed. -/
def c8start : HState (DefaultConsumer Nat) (Option Nat) :=
  hInit NewDefaultConsumer [[some 1]]

/-- C8 run, after the merger forwarded `some 1` and an external
`Cancel()` fired `q`: an `Err` call completing here returns `none`. -/
def c8mid : HState (DefaultConsumer Nat) (Option Nat) :=
  ⟨true, [⟨[], .wait⟩], [some 1], false, ⟨none, false⟩, false, false, []⟩

/-- C8 run, after the consume loop then consumed the buffered value: an
`Err` call completing here returns `some 1`. -/
def c8end : HState (DefaultConsumer Nat) (Option Nat) :=
  ⟨true, [⟨[], .wait⟩], [], false, ⟨some 1, true⟩, true, false, [some 1]⟩

/-- C8 counterexample: on the same run, an `Err` call completing at
`c8mid` (the signal is fired, so the call completes) returns `none`,
while a later call completing at `c8end` returns `some 1` — two calls
completing after the first completion disagree, refuting determinism of
`Err` across repeated calls. -/
theorem err_repeat_calls_differ :
    HCReach DefaultConsumer.Consume c8start c8mid ∧
    HCReach DefaultConsumer.Consume c8mid c8end ∧
    c8mid.q = true ∧ c8end.q = true ∧
    DefaultConsumer.Err c8mid.cons ≠ DefaultConsumer.Err c8end.cons := by
  have h1 : HCStep DefaultConsumer.Consume c8start
      ⟨false, [⟨[], .hold (some 1)⟩], [], false, ⟨none, false⟩, false, false, []⟩ :=
    Or.inl (HStep.read c8start 0 ⟨[some 1], .wait⟩ (some 1) [] rfl rfl rfl)
  have h2 : HCStep DefaultConsumer.Consume
      ⟨false, [⟨[], .hold (some 1)⟩], [], false, ⟨none, false⟩, false, false, []⟩
      ⟨false, [⟨[], .fwd (some 1)⟩], [], false, ⟨none, false⟩, false, false, []⟩ :=
    Or.inl (HStep.pollPass _ 0 ⟨[], .hold (some 1)⟩ (some 1) rfl rfl rfl)
  have h3 : HCStep DefaultConsumer.Consume
      ⟨false, [⟨[], .fwd (some 1)⟩], [], false, ⟨none, false⟩, false, false, []⟩
      ⟨false, [⟨[], .wait⟩], [some 1], false, ⟨none, false⟩, false, false, []⟩ :=
    Or.inl (HStep.fwdSend _ 0 ⟨[], .fwd (some 1)⟩ (some 1) rfl rfl (by simp))
  have h4 : HCStep DefaultConsumer.Consume
      ⟨false, [⟨[], .wait⟩], [some 1], false, ⟨none, false⟩, false, false, []⟩
      c8mid :=
    Or.inr rfl
  have h5 : HCStep DefaultConsumer.Consume c8mid c8end :=
    Or.inl (HStep.sReject c8mid (some 1) [] ⟨some 1, true⟩ rfl rfl rfl rfl)
  refine ⟨?_, ?_, rfl, rfl, by decide⟩
  · exact Relation.ReflTransGen.head h1 (Relation.ReflTransGen.head h2
      (Relation.ReflTransGen.head h3 (Relation.ReflTransGen.head h4
        Relation.ReflTransGen.refl)))
  · exact Relation.ReflTransGen.head h5 Relation.ReflTransGen.refl

/-- C8 amended: `Err` blocks until the finished/cancellation signal
fires and then returns the consumer's error; once the consume loop has
returned, the consumer state never changes again and the signal stays
fired, so every `Err` call completing after the loop's return yields
the same value.  (Calls completing after an external `Cancel` but while
the loop is still consuming buffered values may observe different
values, as the counterexample shows.) -/
theorem err_stable_after_loop (Consume : σ → α → Bool × σ)
    (s t : HState σ α) (h : HCReach Consume s t) (hfin : s.sfin = true) :
    t.cons = s.cons ∧ t.sfin = true ∧ (s.q = true → t.q = true) := by
  refine @reach_invariant (HState σ α) (HCStep Consume)
    (fun x => x.cons = s.cons ∧ x.sfin = true ∧ (s.q = true → x.q = true)) s t
    h ⟨rfl, hfin, fun hq => hq⟩ ?_
  intro x y hx hxy
  obtain ⟨hc, hf, hqm⟩ := hx
  rcases hxy with hstep | hext
  · cases hstep with
    | read i t' v rest h1 h2 h3 => exact ⟨hc, hf, hqm⟩
    | finish i t' h1 h2 h3 => exact ⟨hc, hf, hqm⟩
    | pollStop i t' v h1 h2 h3 => exact ⟨hc, hf, hqm⟩
    | pollPass i t' v h1 h2 h3 => exact ⟨hc, hf, hqm⟩
    | fwdSend i t' v h1 h2 h3 => exact ⟨hc, hf, hqm⟩
    | closeOut h1 h2 => exact ⟨hc, hf, hqm⟩
    | sDiscard v rest h1 h2 h3 =>
      rw [hf] at h1
      exact absurd h1 (by simp)
    | sAccept v rest c' h1 h2 h3 h4 =>
      rw [hf] at h1
      exact absurd h1 (by simp)
    | sReject v rest c' h1 h2 h3 h4 =>
      rw [hf] at h1
      exact absurd h1 (by simp)
    | sFinish h1 h2 h3 =>
      rw [hf] at h1
      exact absurd h1 (by simp)
  · rw [hext]
    exact ⟨hc, hf, fun _ => rfl⟩

/-- C8 amended witness: a state where the consume loop has returned. -/
theorem err_stable_after_loop_witness :
    (⟨true, [], [], true, (⟨some 1, true⟩ : DefaultConsumer Nat), true, true, [some 1]⟩
        : HState (DefaultConsumer Nat) (Option Nat)).sfin = true ∧
    (⟨true, [], [], true, (⟨some 1, true⟩ : DefaultConsumer Nat), true, true, [some 1]⟩
        : HState (DefaultConsumer Nat) (Option Nat)).cons = ⟨some 1, true⟩ := by
  have h := err_stable_after_loop DefaultConsumer.Consume
    (⟨true, [], [], true, (⟨some 1, true⟩ : DefaultConsumer Nat), true, true, [some 1]⟩
      : HState (DefaultConsumer Nat) (Option Nat))
    (⟨true, [], [], true, (⟨some 1, true⟩ : DefaultConsumer Nat), true, true, [some 1]⟩
      : HState (DefaultConsumer Nat) (Option Nat))
    Relation.ReflTransGen.refl rfl
  exact ⟨h.2.1, h.1⟩

end HandlerSys

end Errmux

/-! ## `Job.Run` (pipeline.go)

```go
func (j *Job) Run(c errmux.Consumer, n int) *errmux.Handler {
    var wg sync.WaitGroup
    ws := make([]Worker, n)
    ... // n workers, n channels of capacity 1
    poolErrs := make(chan error, 1)
    errOuts, errIns = append(errOuts, poolErrs), append(errIns, poolErrs)
    h := errmux.NewHandler(c, errOuts...)

    // Cancel the job if the handler reports an error.
    go func() {
        if _, ok := <-h.ErrChan(); !ok {
            j.Close()
        }
    }()

    for i := range ws {
        go func(v Worker, e chan<- error) {
            defer func() {
                e <- v.Close()
                close(e)
                wg.Done()
            }()
            ok := true
            var err error
            for ok {
                select {
                case <-j.q:
                    return
                default:
                }
                ok, err = v.Next()
                e <- err
            }
            log.Print("succcess")
        }(ws[i], errIns[i])
    }

    go func() {
        wg.Wait()
        poolErrs <- j.pool.Close()
        close(poolErrs)
    }()
    return h
}
```

The system has, for a run with `n` workers: `n` worker goroutines, the
bridge goroutine reading `h.ErrChan()`, the completion goroutine, the
`n + 1` merger drain goroutines of the embedded handler (task `i < n`
reads worker channel `i`; task `n` reads `poolErrs`), the merger closer,
and the handler's consume loop.  `ErrChan` makes a channel `e` of
capacity 1 and spawns `go func() { defer close(e); e <- h.Err() }`:
the inner send is enabled once `h.q` is fired (`h.Err` waits on `h.q`),
`close(e)` follows the send, and a receive from `e` yields `ok = true`
whenever a buffered value is available (also after close) and
`ok = false` only when `e` is closed and empty.  Workers are abstract:
worker `i`'s `k`-th `Next()` call returns `next i k` and its `Close()`
returns `wclose i`; the pool's `Close()` returns `pcErr`. -/

namespace Pipeline

/-- A Go error channel (capacity 1 in `Job.Run`). -/
structure Chan (E : Type) where
  buf : List (Option E)
  closed : Bool
deriving DecidableEq

/-- Control state of one worker goroutine. -/
inductive WPhase (E : Type) where
  | check (k : Nat)
  | send (k : Nat) (ok : Bool) (err : Option E)
  | closeSend
  | closeChan
  | gone
deriving DecidableEq

/-- Merger drain goroutine phase. -/
inductive MPh (E : Type) where
  | wait
  | hold (v : Option E)
  | fwd (v : Option E)
  | done
deriving DecidableEq

/-- Completion goroutine phase (`wg.Wait(); poolErrs <- j.pool.Close();
close(poolErrs)`). -/
inductive CompPhase where
  | waiting
  | sent
  | closed
deriving DecidableEq

/-- Bridge goroutine phase (`if _, ok := <-h.ErrChan(); !ok { j.Close() }`). -/
inductive BPhase where
  | recv
  | done
deriving DecidableEq

/-- Global state of one `Job.Run(c, n)` run.  `workers`, `chans` have
length `n`; `mtasks` has length `n + 1` (task `n` reads `pe`).  Ghost
fields: `poolCloseCount` counts `j.pool.Close()` invocations and
`consumed` records the values passed to `Consume`. -/
structure PState (σ E : Type) where
  jq : Bool
  workers : List (WPhase E)
  chans : List (Chan E)
  pe : Chan E
  wg : Nat
  comp : CompPhase
  poolCloseCount : Nat
  mtasks : List (MPh E)
  out : List (Option E)
  outClosed : Bool
  hq : Bool
  sdone : Bool
  sfin : Bool
  cons : σ
  consumed : List (Option E)
  ecSent : Bool
  ecTaken : Bool
  ecClosed : Bool
  bridge : BPhase
deriving DecidableEq

variable {σ E : Type}

/-- The state right after `Job.Run(c0, n)` returns: every worker at its
loop head, all channels empty and open, the wait group at `n`, every
merger task at its range head, the handler fresh, the `ErrChan`
machinery idle. -/
def pInit (c0 : σ) (n : Nat) : PState σ E :=
  ⟨false, List.replicate n (.check 0), List.replicate n ⟨[], false⟩, ⟨[], false⟩, n,
   .waiting, 0, List.replicate (n + 1) .wait, [], false, false, false, false, c0, [],
   false, false, false, .recv⟩

/-- One atomic action of `Job.Run`'s goroutines.  Parameters: the
consumer's `Consume`, the workers' `Next` results (`next i k` is worker
`i`'s `k`-th call), the workers' `Close` results (`wclose`), and the
pool's `Close` result (`pcErr`). -/
inductive PStep (Consume : σ → Option E → Bool × σ) (next : Nat → Nat → Bool × Option E)
    (wclose : Nat → Option E) (pcErr : Option E) : PState σ E → PState σ E → Prop
  -- worker i, loop head: `select { case <-j.q: return; default: }`
  | wStop (s : PState σ E) (i k : Nat) :
      s.workers[i]? = some (.check k) → s.jq = true →
      PStep Consume next wclose pcErr s { s with workers := s.workers.set i .closeSend }
  | wNext (s : PState σ E) (i k : Nat) (ok : Bool) (e : Option E) :
      s.workers[i]? = some (.check k) → s.jq = false → next i k = (ok, e) →
      PStep Consume next wclose pcErr s { s with workers := s.workers.set i (.send k ok e) }
  -- worker i: `e <- err` (blocks while the buffer is full), then the
  -- loop condition `for ok`
  | wSend (s : PState σ E) (i k : Nat) (ok : Bool) (e : Option E) (ch : Chan E) :
      s.workers[i]? = some (.send k ok e) → s.chans[i]? = some ch → ch.buf.length < 1 →
      PStep Consume next wclose pcErr s
        { s with chans := s.chans.set i ⟨ch.buf ++ [e], ch.closed⟩,
                 workers := s.workers.set i (if ok then .check (k + 1) else .closeSend) }
  -- worker i, deferred: `e <- v.Close()`
  | wCloseSend (s : PState σ E) (i : Nat) (ch : Chan E) :
      s.workers[i]? = some .closeSend → s.chans[i]? = some ch → ch.buf.length < 1 →
      PStep Consume next wclose pcErr s
        { s with chans := s.chans.set i ⟨ch.buf ++ [wclose i], ch.closed⟩,
                 workers := s.workers.set i .closeChan }
  -- worker i, deferred: `close(e); wg.Done()`
  | wCloseChan (s : PState σ E) (i : Nat) (ch : Chan E) :
      s.workers[i]? = some .closeChan → s.chans[i]? = some ch →
      PStep Consume next wclose pcErr s
        { s with chans := s.chans.set i ⟨ch.buf, true⟩,
                 workers := s.workers.set i .gone, wg := s.wg - 1 }
  -- completion goroutine: past `wg.Wait()`, calls `j.pool.Close()` and
  -- sends its result on `poolErrs`
  | compClose (s : PState σ E) :
      s.comp = .waiting → s.wg = 0 → s.pe.buf.length < 1 →
      PStep Consume next wclose pcErr s
        { s with pe := ⟨s.pe.buf ++ [pcErr], s.pe.closed⟩,
                 poolCloseCount := s.poolCloseCount + 1, comp := .sent }
  -- completion goroutine: `close(poolErrs)`
  | compCloseChan (s : PState σ E) :
      s.comp = .sent →
      PStep Consume next wclose pcErr s
        { s with pe := ⟨s.pe.buf, true⟩, comp := .closed }
  -- merger drain task i < n: receive from worker channel i
  | mReadW (s : PState σ E) (i : Nat) (ch : Chan E) (v : Option E) (rest : List (Option E)) :
      s.mtasks[i]? = some .wait → s.chans[i]? = some ch → ch.buf = v :: rest →
      PStep Consume next wclose pcErr s
        { s with chans := s.chans.set i ⟨rest, ch.closed⟩, mtasks := s.mtasks.set i (.hold v) }
  | mFinishW (s : PState σ E) (i : Nat) (ch : Chan E) :
      s.mtasks[i]? = some .wait → s.chans[i]? = some ch → ch.buf = [] → ch.closed = true →
      PStep Consume next wclose pcErr s { s with mtasks := s.mtasks.set i .done }
  -- merger drain task n: receive from poolErrs
  | mReadP (s : PState σ E) (v : Option E) (rest : List (Option E)) :
      s.mtasks[s.chans.length]? = some .wait → s.pe.buf = v :: rest →
      PStep Consume next wclose pcErr s
        { s with pe := ⟨rest, s.pe.closed⟩, mtasks := s.mtasks.set s.chans.length (.hold v) }
  | mFinishP (s : PState σ E) :
      s.mtasks[s.chans.length]? = some .wait → s.pe.buf = [] → s.pe.closed = true →
      PStep Consume next wclose pcErr s { s with mtasks := s.mtasks.set s.chans.length .done }
  -- merger drain task: the `select` poll on `q`, then the send on `out`
  | mPollStop (s : PState σ E) (i : Nat) (v : Option E) :
      s.mtasks[i]? = some (.hold v) → s.hq = true →
      PStep Consume next wclose pcErr s { s with mtasks := s.mtasks.set i .done }
  | mPollPass (s : PState σ E) (i : Nat) (v : Option E) :
      s.mtasks[i]? = some (.hold v) → s.hq = false →
      PStep Consume next wclose pcErr s { s with mtasks := s.mtasks.set i (.fwd v) }
  | mFwd (s : PState σ E) (i : Nat) (v : Option E) :
      s.mtasks[i]? = some (.fwd v) → s.out.length < s.mtasks.length →
      PStep Consume next wclose pcErr s
        { s with out := s.out ++ [v], mtasks := s.mtasks.set i .wait }
  -- merger closer: `wg.Wait(); close(out)`
  | mCloseOut (s : PState σ E) :
      (∀ m ∈ s.mtasks, m = .done) → s.outClosed = false →
      PStep Consume next wclose pcErr s { s with outClosed := true }
  -- consume loop
  | sDiscard (s : PState σ E) (v : Option E) (rest : List (Option E)) :
      s.sfin = false → s.sdone = true → s.out = v :: rest →
      PStep Consume next wclose pcErr s { s with out := rest }
  | sAccept (s : PState σ E) (v : Option E) (rest : List (Option E)) (c' : σ) :
      s.sfin = false → s.sdone = false → s.out = v :: rest → Consume s.cons v = (true, c') →
      PStep Consume next wclose pcErr s
        { s with out := rest, cons := c', consumed := s.consumed ++ [v] }
  | sReject (s : PState σ E) (v : Option E) (rest : List (Option E)) (c' : σ) :
      s.sfin = false → s.sdone = false → s.out = v :: rest → Consume s.cons v = (false, c') →
      PStep Consume next wclose pcErr s
        { s with out := rest, cons := c', consumed := s.consumed ++ [v],
                 hq := true, sdone := true }
  | sFinish (s : PState σ E) :
      s.sfin = false → s.out = [] → s.outClosed = true →
      PStep Consume next wclose pcErr s { s with hq := true, sfin := true }
  -- ErrChan goroutine: `e <- h.Err()` (enabled once `h.q` is fired),
  -- then `close(e)`
  | ecSend (s : PState σ E) :
      s.hq = true → s.ecSent = false →
      PStep Consume next wclose pcErr s { s with ecSent := true }
  | ecClose (s : PState σ E) :
      s.ecSent = true → s.ecClosed = false →
      PStep Consume next wclose pcErr s { s with ecClosed := true }
  -- bridge goroutine: the receive `_, ok := <-h.ErrChan()`.  A buffered
  -- value is delivered with ok = true (even after close), so the `!ok`
  -- branch is not taken and `j.Close()` is not called.
  | bRecvVal (s : PState σ E) :
      s.bridge = .recv → s.ecSent = true → s.ecTaken = false →
      PStep Consume next wclose pcErr s { s with ecTaken := true, bridge := .done }
  -- bridge goroutine: receive on a closed and already-emptied channel
  -- yields ok = false, and `j.Close()` closes `j.q`.
  | bRecvClosed (s : PState σ E) :
      s.bridge = .recv → s.ecTaken = true → s.ecClosed = true →
      PStep Consume next wclose pcErr s { s with jq := true, bridge := .done }

/-- Reachability in the `Job.Run` system. -/
def PReach (Consume : σ → Option E → Bool × σ) (next : Nat → Nat → Bool × Option E)
    (wclose : Nat → Option E) (pcErr : Option E) : PState σ E → PState σ E → Prop :=
  Relation.ReflTransGen (PStep Consume next wclose pcErr)

/-- No goroutine of the run has an enabled action. -/
def PTerminal (Consume : σ → Option E → Bool × σ) (next : Nat → Nat → Bool × Option E)
    (wclose : Nat → Option E) (pcErr : Option E) (s : PState σ E) : Prop :=
  ∀ t, ¬ PStep Consume next wclose pcErr s t

/-- In every run of `Job.Run`, the `ErrChan` goroutine sends exactly one
value before closing its channel, so the bridge goroutine's single
receive always yields `ok = true`; the `!ok` branch is never taken,
`j.Close()` is never called from inside the run, and `j.q` is never
closed.  (The receive could yield `ok = false` only on a closed and
already-emptied channel, which would require the bridge — the only
receiver — to have already received.) -/
theorem jq_never_fired (Consume : σ → Option E → Bool × σ)
    (next : Nat → Nat → Bool × Option E) (wclose : Nat → Option E) (pcErr : Option E)
    (c0 : σ) (n : Nat) (s : PState σ E)
    (h : PReach Consume next wclose pcErr (pInit c0 n) s) :
    s.jq = false ∧ (s.ecTaken = true → s.bridge = .done) := by
  refine @Errmux.reach_invariant (PState σ E) (PStep Consume next wclose pcErr)
    (fun x => x.jq = false ∧ (x.ecTaken = true → x.bridge = .done)) _ _ h
    ⟨rfl, by intro h'; simp [pInit] at h'⟩ ?_
  intro x y hx hxy
  obtain ⟨hjq, hbt⟩ := hx
  cases hxy with
  | wStop i k h1 h2 => exact ⟨hjq, hbt⟩
  | wNext i k ok e h1 h2 h3 => exact ⟨hjq, hbt⟩
  | wSend i k ok e ch h1 h2 h3 => exact ⟨hjq, hbt⟩
  | wCloseSend i ch h1 h2 h3 => exact ⟨hjq, hbt⟩
  | wCloseChan i ch h1 h2 => exact ⟨hjq, hbt⟩
  | compClose h1 h2 h3 => exact ⟨hjq, hbt⟩
  | compCloseChan h1 => exact ⟨hjq, hbt⟩
  | mReadW i ch v rest h1 h2 h3 => exact ⟨hjq, hbt⟩
  | mFinishW i ch h1 h2 h3 h4 => exact ⟨hjq, hbt⟩
  | mReadP v rest h1 h2 => exact ⟨hjq, hbt⟩
  | mFinishP h1 h2 h3 => exact ⟨hjq, hbt⟩
  | mPollStop i v h1 h2 => exact ⟨hjq, hbt⟩
  | mPollPass i v h1 h2 => exact ⟨hjq, hbt⟩
  | mFwd i v h1 h2 => exact ⟨hjq, hbt⟩
  | mCloseOut h1 h2 => exact ⟨hjq, hbt⟩
  | sDiscard v rest h1 h2 h3 => exact ⟨hjq, hbt⟩
  | sAccept v rest c' h1 h2 h3 h4 => exact ⟨hjq, hbt⟩
  | sReject v rest c' h1 h2 h3 h4 => exact ⟨hjq, hbt⟩
  | sFinish h1 h2 h3 => exact ⟨hjq, hbt⟩
  | ecSend h1 h2 => exact ⟨hjq, hbt⟩
  | ecClose h1 h2 => exact ⟨hjq, hbt⟩
  | bRecvVal h1 h2 h3 => exact ⟨hjq, fun _ => rfl⟩
  | bRecvClosed h1 h2 h3 =>
    have hd := hbt h2
    rw [h1] at hd
    exact absurd hd (by simp)

/-- C1/C6 failing instance: one worker whose every task reports a
non-nil error and continues. -/
def next1 : Nat → Nat → Bool × Option Nat := fun _ _ => (true, some 0)

/-- C1/C6 failing instance: worker `Close()` returns nil. -/
def wclose1 : Nat → Option Nat := fun _ => none

/-- A state of the failing run reached after the consumer rejected the
first task's error (so `h.q` fired and `sdone` is set) and the worker
then went on to start its third task: two additional `Next()` calls
after the rejection, with `j.q` still open. -/
def c1end : PState (Errmux.DefaultConsumer Nat) Nat :=
  ⟨false, [.send 2 true (some 0)], [⟨[some 0], false⟩], ⟨[], false⟩, 1, .waiting, 0,
   [.wait, .wait], [], false, true, true, false, ⟨some 0, true⟩, [some 0],
   false, false, false, .recv⟩

/-- C1: the guarantee fails on the code.  In `Job.Run(DefaultConsumer, 1)`
with a worker whose tasks keep yielding a non-nil error, the run reaches
a state in which the consumer has rejected the only delivered error
(`sdone` set, `consumed = [some 0]`), yet `j.q` is still open and the
worker has completed its 3rd `Next()` call — two additional tasks after
the rejection, where the claim allows at most one.  The bridge goroutine
at pipeline.go:83–87 receives the buffered `ErrChan` value with
`ok = true`, so `j.Close()` is never invoked and no worker ever observes
cancellation (`jq_never_fired`). -/
theorem run_cancel_not_propagated :
    PReach Errmux.DefaultConsumer.Consume next1 wclose1 none
      (pInit Errmux.NewDefaultConsumer 1) c1end ∧
    c1end.sdone = true ∧ c1end.consumed = [some 0] ∧
    c1end.workers[0]? = some (.send 2 true (some 0)) ∧
    c1end.jq = false := by
  refine ⟨?_, rfl, rfl, rfl, rfl⟩
  refine Relation.ReflTransGen.head
    (PStep.wNext _ 0 0 true (some 0) rfl rfl rfl) ?_
  refine Relation.ReflTransGen.head
    (PStep.wSend _ 0 0 true (some 0) ⟨[], false⟩ rfl rfl (by decide)) ?_
  refine Relation.ReflTransGen.head
    (PStep.mReadW _ 0 ⟨[some 0], false⟩ (some 0) [] rfl rfl rfl) ?_
  refine Relation.ReflTransGen.head
    (PStep.mPollPass _ 0 (some 0) rfl rfl) ?_
  refine Relation.ReflTransGen.head
    (PStep.mFwd _ 0 (some 0) rfl (by decide)) ?_
  refine Relation.ReflTransGen.head
    (PStep.sReject _ (some 0) [] ⟨some 0, true⟩ rfl rfl rfl (by decide)) ?_
  refine Relation.ReflTransGen.head
    (PStep.wNext _ 0 1 true (some 0) rfl rfl rfl) ?_
  refine Relation.ReflTransGen.head
    (PStep.wSend _ 0 1 true (some 0) ⟨[], false⟩ rfl rfl (by decide)) ?_
  exact Relation.ReflTransGen.head
    (PStep.wNext _ 0 2 true (some 0) rfl rfl rfl) Relation.ReflTransGen.refl

theorem getElem?_one {α : Type} (a x : α) (i : Nat) :
    ((([a] : List α))[i]? = some x) ↔ i = 0 ∧ a = x := by
  match i with
  | 0 => simp
  | n + 1 => simp

theorem getElem?_two {α : Type} (a b x : α) (i : Nat) :
    ((([a, b] : List α))[i]? = some x) ↔ (i = 0 ∧ a = x) ∨ (i = 1 ∧ b = x) := by
  match i with
  | 0 => simp
  | 1 => simp
  | n + 2 => simp

/-- The failing run, completed: the consumer rejected the first error,
the merger drain task for the worker channel read one more value,
observed the fired `h.q` and returned for good; the worker then filled
its channel buffer again and is blocked forever in `e <- err`; the wait
group never reaches zero; the `ErrChan`/bridge machinery has run to
completion without calling `j.Close()`.  No goroutine can move, and the
pool was never closed. -/
def sDead : PState (Errmux.DefaultConsumer Nat) Nat :=
  ⟨false, [.send 3 true (some 0)], [⟨[some 0], false⟩], ⟨[], false⟩, 1, .waiting, 0,
   [.done, .wait], [], false, true, true, false, ⟨some 0, true⟩, [some 0],
   true, true, true, .done⟩

/-- C6 counterexample: a complete run of `Job.Run(DefaultConsumer, 1)`
(reachable, and no goroutine has an enabled action) in which
`j.pool.Close()` was never invoked — "the pool's Close is invoked
exactly once in every run" fails. -/
theorem pool_close_never_invoked :
    PReach Errmux.DefaultConsumer.Consume next1 wclose1 none
      (pInit Errmux.NewDefaultConsumer 1) sDead ∧
    (∀ t, ¬ PStep Errmux.DefaultConsumer.Consume next1 wclose1 none sDead t) ∧
    sDead.poolCloseCount = 0 := by
  refine ⟨?_, ?_, rfl⟩
  · refine Relation.ReflTransGen.head
      (PStep.wNext _ 0 0 true (some 0) rfl rfl rfl) ?_
    refine Relation.ReflTransGen.head
      (PStep.wSend _ 0 0 true (some 0) ⟨[], false⟩ rfl rfl (by decide)) ?_
    refine Relation.ReflTransGen.head
      (PStep.mReadW _ 0 ⟨[some 0], false⟩ (some 0) [] rfl rfl rfl) ?_
    refine Relation.ReflTransGen.head
      (PStep.mPollPass _ 0 (some 0) rfl rfl) ?_
    refine Relation.ReflTransGen.head
      (PStep.mFwd _ 0 (some 0) rfl (by decide)) ?_
    refine Relation.ReflTransGen.head
      (PStep.sReject _ (some 0) [] ⟨some 0, true⟩ rfl rfl rfl (by decide)) ?_
    refine Relation.ReflTransGen.head
      (PStep.wNext _ 0 1 true (some 0) rfl rfl rfl) ?_
    refine Relation.ReflTransGen.head
      (PStep.wSend _ 0 1 true (some 0) ⟨[], false⟩ rfl rfl (by decide)) ?_
    refine Relation.ReflTransGen.head
      (PStep.mReadW _ 0 ⟨[some 0], false⟩ (some 0) [] rfl rfl rfl) ?_
    refine Relation.ReflTransGen.head
      (PStep.mPollStop _ 0 (some 0) rfl rfl) ?_
    refine Relation.ReflTransGen.head
      (PStep.wNext _ 0 2 true (some 0) rfl rfl rfl) ?_
    refine Relation.ReflTransGen.head
      (PStep.wSend _ 0 2 true (some 0) ⟨[], false⟩ rfl rfl (by decide)) ?_
    refine Relation.ReflTransGen.head
      (PStep.wNext _ 0 3 true (some 0) rfl rfl rfl) ?_
    refine Relation.ReflTransGen.head
      (PStep.ecSend _ rfl rfl) ?_
    refine Relation.ReflTransGen.head
      (PStep.bRecvVal _ rfl rfl rfl) ?_
    exact Relation.ReflTransGen.head
      (PStep.ecClose _ rfl rfl) Relation.ReflTransGen.refl
  · intro t hstep
    cases hstep with
    | wStop i k h1 h2 => simp [sDead, getElem?_one] at h1
    | wNext i k ok e h1 h2 h3 => simp [sDead, getElem?_one] at h1
    | wSend i k ok e ch h1 h2 h3 =>
      rw [show sDead.workers = [.send 3 true (some 0)] from rfl, getElem?_one] at h1
      obtain ⟨hi, -⟩ := h1
      subst hi
      rw [show sDead.chans = [⟨[some 0], false⟩] from rfl, getElem?_one] at h2
      obtain ⟨-, hch⟩ := h2
      rw [← hch] at h3
      simp at h3
    | wCloseSend i ch h1 h2 h3 => simp [sDead, getElem?_one] at h1
    | wCloseChan i ch h1 h2 => simp [sDead, getElem?_one] at h1
    | compClose h1 h2 h3 => simp [sDead] at h2
    | compCloseChan h1 => simp [sDead] at h1
    | mReadW i ch v rest h1 h2 h3 =>
      simp [sDead, getElem?_two] at h1
      subst h1
      simp [sDead, getElem?_one] at h2
    | mFinishW i ch h1 h2 h3 h4 =>
      simp [sDead, getElem?_two] at h1
      subst h1
      simp [sDead, getElem?_one] at h2
    | mReadP v rest h1 h2 => simp [sDead] at h2
    | mFinishP h1 h2 h3 => simp [sDead] at h3
    | mPollStop i v h1 h2 => simp [sDead, getElem?_two] at h1
    | mPollPass i v h1 h2 => simp [sDead] at h2
    | mFwd i v h1 h2 => simp [sDead, getElem?_two] at h1
    | mCloseOut h1 h2 =>
      have hw := h1 MPh.wait (by simp [sDead])
      simp at hw
    | sDiscard v rest h1 h2 h3 => simp [sDead] at h3
    | sAccept v rest c' h1 h2 h3 h4 => simp [sDead] at h3
    | sReject v rest c' h1 h2 h3 h4 => simp [sDead] at h3
    | sFinish h1 h2 h3 => simp [sDead] at h3
    | ecSend h1 h2 => simp [sDead] at h2
    | ecClose h1 h2 => simp [sDead] at h2
    | bRecvVal h1 h2 h3 => simp [sDead] at h3
    | bRecvClosed h1 h2 h3 => simp [sDead] at h1

theorem length_filter_set {α : Type} (p : α → Bool) (l : List α) (i : Nat) (a b : α)
    (h : l[i]? = some a) :
    ((l.set i b).filter p).length + (if p a then 1 else 0)
      = (l.filter p).length + (if p b then 1 else 0) := by
  induction l generalizing i with
  | nil => simp at h
  | cons x xs ih =>
    cases i with
    | zero =>
      simp at h
      subst h
      simp only [List.set]
      rw [List.filter_cons, List.filter_cons]
      cases hpa : p x <;> cases hpb : p b <;> simp [hpa, hpb]
    | succ n =>
      simp at h
      have hrec := ih n h
      simp only [List.set]
      rw [List.filter_cons, List.filter_cons]
      cases hpx : p x <;> simp [hpx] <;> omega

/-- Whether a worker goroutine is still counted by the wait group. -/
def notGone : WPhase E → Bool
  | .gone => false
  | _ => true

theorem notGone_eq_false {E : Type} (w : WPhase E) (h : notGone w = false) : w = .gone := by
  cases w <;> simp [notGone] at h ⊢

/-- Inductive invariant tying the completion goroutine to the worker
goroutines: the pool is closed at most once, only after every worker has
finished (its `Close()` completed, its channel closed, `wg.Done()`
executed), and the reserved `poolErrs` stream carries only the release
error and is closed exactly by the completion goroutine. -/
structure InvC6 (s : PState σ E) : Prop where
  wclen : s.workers.length = s.chans.length
  hpcc : s.poolCloseCount = (if s.comp = .waiting then 0 else 1)
  hwg : s.wg = (s.workers.filter notGone).length
  hchw : ∀ (i : Nat) (ch : Chan E), s.chans[i]? = some ch →
    (ch.closed = true ↔ s.workers[i]? = some .gone)
  hcomp : s.comp ≠ .waiting → ∀ w ∈ s.workers, w = .gone
  hpe : s.pe.closed = true ↔ s.comp = .closed
  hpeb : s.comp = .waiting → s.pe.buf = []

theorem invC6_init (c0 : σ) (n : Nat) : InvC6 (pInit c0 n : PState σ E) := by
  refine ⟨by simp [pInit], rfl, ?_, ?_, ?_, by simp [pInit], fun _ => rfl⟩
  · simp [pInit, List.filter_replicate, notGone]
  · intro i ch hch
    simp only [pInit] at hch ⊢
    rw [List.getElem?_replicate] at hch
    by_cases hi : i < n
    · rw [if_pos hi] at hch
      cases hch
      rw [List.getElem?_replicate, if_pos hi]
      simp
    · rw [if_neg hi] at hch
      cases hch
  · intro hc
    simp [pInit] at hc

theorem invC6_step (Consume : σ → Option E → Bool × σ) (next : Nat → Nat → Bool × Option E)
    (wclose : Nat → Option E) (pcErr : Option E)
    (x y : PState σ E) (hx : InvC6 x)
    (hxy : PStep Consume next wclose pcErr x y) : InvC6 y := by
  obtain ⟨wclen, hpcc, hwg, hchw, hcomp, hpe, hpeb⟩ := hx
  have keepW : ∀ (i : Nat) (a b : WPhase E), x.workers[i]? = some a →
      notGone a = true → notGone b = true →
      (x.wg = ((x.workers.set i b).filter notGone).length ∧
       (∀ (j : Nat) (ch : Chan E), x.chans[j]? = some ch →
         (ch.closed = true ↔ (x.workers.set i b)[j]? = some .gone)) ∧
       (x.comp ≠ .waiting → ∀ w ∈ x.workers.set i b, w = .gone)) := by
    intro i a b ha hag hbg
    have hag' : ¬ a = WPhase.gone := by
      intro h
      rw [h] at hag
      simp [notGone] at hag
    have hbg' : ¬ b = WPhase.gone := by
      intro h
      rw [h] at hbg
      simp [notGone] at hbg
    have hi : i < x.workers.length := (List.getElem?_eq_some.mp ha).1
    refine ⟨?_, ?_, ?_⟩
    · have h := length_filter_set notGone x.workers i a b ha
      rw [if_pos hag, if_pos hbg] at h
      omega
    · intro j ch hch
      rw [hchw j ch hch]
      by_cases hji : j = i
      · subst hji
        rw [ha, List.getElem?_set_self hi]
        constructor
        · intro h'
          exact absurd (Option.some.inj h') hag'
        · intro h'
          exact absurd (Option.some.inj h') hbg'
      · rw [List.getElem?_set_ne (Ne.symm hji)]
    · intro hc
      exact absurd (hcomp hc a (List.getElem?_mem ha)) hag'
  cases hxy with
  | wStop i k h1 h2 =>
    obtain ⟨k1, k2, k3⟩ := keepW i (.check k) .closeSend h1 (by simp [notGone]) (by simp [notGone])
    exact ⟨by simpa using wclen, hpcc, k1, k2, k3, hpe, hpeb⟩
  | wNext i k ok e h1 h2 h3 =>
    obtain ⟨k1, k2, k3⟩ := keepW i (.check k) (.send k ok e) h1 (by simp [notGone]) (by simp [notGone])
    exact ⟨by simpa using wclen, hpcc, k1, k2, k3, hpe, hpeb⟩
  | wSend i k ok e ch h1 h2 h3 =>
    obtain ⟨k1, k2, k3⟩ := keepW i (.send k ok e) (if ok then .check (k + 1) else .closeSend) h1
      (by simp [notGone]) (by cases ok <;> simp [notGone])
    refine ⟨by simpa using wclen, hpcc, k1, ?_, k3, hpe, hpeb⟩
    intro j ch' hch'
    by_cases hji : j = i
    · subst hji
      rw [List.getElem?_set_self (by rw [← wclen]; exact (List.getElem?_eq_some.mp h1).1)] at hch'
      cases hch'
      have := k2 j ch h2
      simpa using this
    · rw [List.getElem?_set_ne (Ne.symm hji)] at hch'
      exact k2 j ch' hch'
  | wCloseSend i ch h1 h2 h3 =>
    obtain ⟨k1, k2, k3⟩ := keepW i .closeSend .closeChan h1 (by simp [notGone]) (by simp [notGone])
    refine ⟨by simpa using wclen, hpcc, k1, ?_, k3, hpe, hpeb⟩
    intro j ch' hch'
    by_cases hji : j = i
    · subst hji
      rw [List.getElem?_set_self (by rw [← wclen]; exact (List.getElem?_eq_some.mp h1).1)] at hch'
      cases hch'
      have := k2 j ch h2
      simpa using this
    · rw [List.getElem?_set_ne (Ne.symm hji)] at hch'
      exact k2 j ch' hch'
  | wCloseChan i ch h1 h2 =>
    have hi : i < x.workers.length := (List.getElem?_eq_some.mp h1).1
    have hlf := length_filter_set notGone x.workers i .closeChan .gone h1
    rw [if_pos (by simp [notGone]), if_neg (by simp [notGone])] at hlf
    refine ⟨by simpa using wclen, hpcc, ?_, ?_, ?_, hpe, hpeb⟩
    case _ =>
      show x.wg - 1 = ((x.workers.set i WPhase.gone).filter notGone).length
      omega
    · intro j ch' hch'
      by_cases hji : j = i
      · subst hji
        rw [List.getElem?_set_self (by rw [← wclen]; exact hi)] at hch'
        cases hch'
        rw [List.getElem?_set_self hi]
        simp
      · rw [List.getElem?_set_ne (Ne.symm hji)] at hch'
        rw [hchw j ch' hch', List.getElem?_set_ne (Ne.symm hji)]
    · intro hc
      exact absurd (hcomp hc .closeChan (List.getElem?_mem h1)) (by simp)
  | compClose h1 h2 h3 =>
    have hgone : ∀ w ∈ x.workers, w = .gone := by
      intro w hw
      have hlen0 : (x.workers.filter notGone).length = 0 := by
        rw [← hwg]; exact h2
      rw [List.length_eq_zero, List.filter_eq_nil_iff] at hlen0
      exact notGone_eq_false w (by simpa using hlen0 w hw)
    have h0 : x.poolCloseCount = 0 := by
      rw [hpcc, h1]
      rfl
    refine ⟨wclen, ?_, hwg, hchw, fun _ => hgone, ?_, ?_⟩
    · show x.poolCloseCount + 1 = if CompPhase.sent = CompPhase.waiting then 0 else 1
      simp [h0]
    · show x.pe.closed = true ↔ CompPhase.sent = CompPhase.closed
      rw [hpe, h1]
      simp
    · intro hc
      simp at hc
  | compCloseChan h1 =>
    refine ⟨wclen, ?_, hwg, hchw, ?_, ?_, ?_⟩
    · show x.poolCloseCount = if CompPhase.closed = CompPhase.waiting then 0 else 1
      rw [hpcc, h1]
      simp
    · intro _
      exact hcomp (by rw [h1]; simp)
    · show true = true ↔ CompPhase.closed = CompPhase.closed
      simp
    · intro hc
      simp at hc
  | mReadW i ch v rest h1 h2 h3 =>
    refine ⟨by simpa using wclen, hpcc, hwg, ?_, hcomp, hpe, hpeb⟩
    intro j ch' hch'
    by_cases hji : j = i
    · subst hji
      rw [List.getElem?_set_self (List.getElem?_eq_some.mp h2).1] at hch'
      cases hch'
      have := hchw j ch h2
      simpa using this
    · rw [List.getElem?_set_ne (Ne.symm hji)] at hch'
      exact hchw j ch' hch'
  | mFinishW i ch h1 h2 h3 h4 =>
    exact ⟨wclen, hpcc, hwg, hchw, hcomp, hpe, hpeb⟩
  | mReadP v rest h1 h2 =>
    refine ⟨wclen, hpcc, hwg, hchw, hcomp, hpe, ?_⟩
    intro hc
    have := hpeb hc
    rw [h2] at this
    simp at this
  | mFinishP h1 h2 h3 =>
    exact ⟨wclen, hpcc, hwg, hchw, hcomp, hpe, hpeb⟩
  | mPollStop i v h1 h2 =>
    exact ⟨wclen, hpcc, hwg, hchw, hcomp, hpe, hpeb⟩
  | mPollPass i v h1 h2 =>
    exact ⟨wclen, hpcc, hwg, hchw, hcomp, hpe, hpeb⟩
  | mFwd i v h1 h2 =>
    exact ⟨wclen, hpcc, hwg, hchw, hcomp, hpe, hpeb⟩
  | mCloseOut h1 h2 =>
    exact ⟨wclen, hpcc, hwg, hchw, hcomp, hpe, hpeb⟩
  | sDiscard v rest h1 h2 h3 =>
    exact ⟨wclen, hpcc, hwg, hchw, hcomp, hpe, hpeb⟩
  | sAccept v rest c' h1 h2 h3 h4 =>
    exact ⟨wclen, hpcc, hwg, hchw, hcomp, hpe, hpeb⟩
  | sReject v rest c' h1 h2 h3 h4 =>
    exact ⟨wclen, hpcc, hwg, hchw, hcomp, hpe, hpeb⟩
  | sFinish h1 h2 h3 =>
    exact ⟨wclen, hpcc, hwg, hchw, hcomp, hpe, hpeb⟩
  | ecSend h1 h2 =>
    exact ⟨wclen, hpcc, hwg, hchw, hcomp, hpe, hpeb⟩
  | ecClose h1 h2 =>
    exact ⟨wclen, hpcc, hwg, hchw, hcomp, hpe, hpeb⟩
  | bRecvVal h1 h2 h3 =>
    exact ⟨wclen, hpcc, hwg, hchw, hcomp, hpe, hpeb⟩
  | bRecvClosed h1 h2 h3 =>
    exact ⟨wclen, hpcc, hwg, hchw, hcomp, hpe, hpeb⟩

theorem invC6_reach (Consume : σ → Option E → Bool × σ) (next : Nat → Nat → Bool × Option E)
    (wclose : Nat → Option E) (pcErr : Option E) (c0 : σ) (n : Nat) (s : PState σ E)
    (h : PReach Consume next wclose pcErr (pInit c0 n) s) : InvC6 s :=
  Errmux.reach_invariant h (invC6_init c0 n)
    (fun x y hx hxy => invC6_step Consume next wclose pcErr x y hx hxy)

/-- C6 amended: in every run of `Job.Run` with `n` workers, the pool's
`Close` is invoked at most once — exactly once as soon as the completion
goroutine has moved past `wg.Wait()` — and only after all `n` worker
goroutines have finished entirely: every worker is gone (its `Close`
call completed and its stream was closed), the wait group is at zero,
and every worker channel is closed.  Nothing is ever on the reserved
stream before the release; the release error is the only value the
completion goroutine forwards onto it, and the reserved stream is closed
exactly when the completion goroutine finishes.  Once the release has
begun, no worker-loop step occurs: every further action leaves the
workers and the wait group untouched. -/
theorem pool_close_ordering (Consume : σ → Option E → Bool × σ)
    (next : Nat → Nat → Bool × Option E) (wclose : Nat → Option E) (pcErr : Option E)
    (c0 : σ) (n : Nat) (s : PState σ E)
    (h : PReach Consume next wclose pcErr (pInit c0 n) s) :
    s.poolCloseCount ≤ 1 ∧
    (s.poolCloseCount = 1 ↔ s.comp ≠ .waiting) ∧
    (s.comp ≠ .waiting →
      (∀ w ∈ s.workers, w = .gone) ∧ s.wg = 0 ∧ (∀ ch ∈ s.chans, ch.closed = true)) ∧
    (s.pe.closed = true ↔ s.comp = .closed) ∧
    (s.comp = .waiting → s.pe.buf = [] ∧ s.pe.closed = false) ∧
    (s.comp ≠ .waiting → ∀ t, PStep Consume next wclose pcErr s t →
      t.workers = s.workers ∧ t.wg = s.wg) := by
  obtain ⟨wclen, hpcc, hwg, hchw, hcomp, hpe, hpeb⟩ :=
    invC6_reach Consume next wclose pcErr c0 n s h
  have hgone0 : s.comp ≠ .waiting → ∀ w ∈ s.workers, w = WPhase.gone := hcomp
  have hwg0 : s.comp ≠ .waiting → s.wg = 0 := by
    intro hc
    rw [hwg]
    have : s.workers.filter notGone = [] := by
      rw [List.filter_eq_nil_iff]
      intro w hw
      rw [hgone0 hc w hw]
      simp [notGone]
    rw [this]
    rfl
  refine ⟨?_, ?_, ?_, hpe, ?_, ?_⟩
  · rw [hpcc]
    split <;> simp
  · rw [hpcc]
    by_cases hc : s.comp = .waiting <;> simp [hc]
  · intro hc
    refine ⟨hgone0 hc, hwg0 hc, ?_⟩
    intro ch hch
    obtain ⟨i, hi⟩ := List.mem_iff_getElem?.mp hch
    have hiw : i < s.workers.length := by
      rw [wclen]
      exact (List.getElem?_eq_some.mp hi).1
    obtain ⟨w, hw⟩ : ∃ w, s.workers[i]? = some w := ⟨_, List.getElem?_eq_getElem hiw⟩
    have hwg' : w = WPhase.gone := hgone0 hc w (List.getElem?_mem hw)
    exact (hchw i ch hi).mpr (by rw [hw, hwg'])
  · intro hc
    refine ⟨hpeb hc, ?_⟩
    cases hcl : s.pe.closed
    · rfl
    · have := hpe.mp hcl
      rw [hc] at this
      exact absurd this (by simp)
  · intro hc t hstep
    cases hstep with
    | wStop i k h1 h2 =>
      exact absurd (hgone0 hc _ (List.getElem?_mem h1)) (by simp)
    | wNext i k ok e h1 h2 h3 =>
      exact absurd (hgone0 hc _ (List.getElem?_mem h1)) (by simp)
    | wSend i k ok e ch h1 h2 h3 =>
      exact absurd (hgone0 hc _ (List.getElem?_mem h1)) (by simp)
    | wCloseSend i ch h1 h2 h3 =>
      exact absurd (hgone0 hc _ (List.getElem?_mem h1)) (by simp)
    | wCloseChan i ch h1 h2 =>
      exact absurd (hgone0 hc _ (List.getElem?_mem h1)) (by simp)
    | compClose h1 h2 h3 => exact ⟨rfl, rfl⟩
    | compCloseChan h1 => exact ⟨rfl, rfl⟩
    | mReadW i ch v rest h1 h2 h3 => exact ⟨rfl, rfl⟩
    | mFinishW i ch h1 h2 h3 h4 => exact ⟨rfl, rfl⟩
    | mReadP v rest h1 h2 => exact ⟨rfl, rfl⟩
    | mFinishP h1 h2 h3 => exact ⟨rfl, rfl⟩
    | mPollStop i v h1 h2 => exact ⟨rfl, rfl⟩
    | mPollPass i v h1 h2 => exact ⟨rfl, rfl⟩
    | mFwd i v h1 h2 => exact ⟨rfl, rfl⟩
    | mCloseOut h1 h2 => exact ⟨rfl, rfl⟩
    | sDiscard v rest h1 h2 h3 => exact ⟨rfl, rfl⟩
    | sAccept v rest c' h1 h2 h3 h4 => exact ⟨rfl, rfl⟩
    | sReject v rest c' h1 h2 h3 h4 => exact ⟨rfl, rfl⟩
    | sFinish h1 h2 h3 => exact ⟨rfl, rfl⟩
    | ecSend h1 h2 => exact ⟨rfl, rfl⟩
    | ecClose h1 h2 => exact ⟨rfl, rfl⟩
    | bRecvVal h1 h2 h3 => exact ⟨rfl, rfl⟩
    | bRecvClosed h1 h2 h3 => exact ⟨rfl, rfl⟩

/-- C6 amended witness: the fresh one-worker run. -/
theorem pool_close_ordering_witness :
    (pInit Errmux.NewDefaultConsumer 1 : PState (Errmux.DefaultConsumer Nat) Nat).poolCloseCount
        ≤ 1 ∧
    ((pInit Errmux.NewDefaultConsumer 1 : PState (Errmux.DefaultConsumer Nat) Nat).pe.closed
        = true ↔
      (pInit Errmux.NewDefaultConsumer 1 : PState (Errmux.DefaultConsumer Nat) Nat).comp
        = .closed) := by
  have h := pool_close_ordering Errmux.DefaultConsumer.Consume next1 wclose1 none
    Errmux.NewDefaultConsumer 1 (pInit Errmux.NewDefaultConsumer 1)
    Relation.ReflTransGen.refl
  exact ⟨h.1, h.2.2.2.1⟩

/-! ### The zero-worker run -/

/-- The value a merger drain goroutine has read but not yet forwarded. -/
def holdP : MPh E → List (Option E)
  | .hold v => [v]
  | .fwd v => [v]
  | _ => []

/-- Inductive invariant of `Job.Run(c, 0)`: no workers exist, the wait
group starts (and stays) at zero, the single merger drain goroutine
reads the reserved stream, and the pool's release error is the only
value that ever flows through the system — it is, at any time, in
exactly one place: still pending in the completion goroutine, buffered
in `poolErrs`, held by the drain goroutine, buffered in `out`, or
consumed. -/
structure InvZ (pcErr : Option E) (s : PState σ E) : Prop where
  hw : s.workers = []
  hc : s.chans = []
  hwgz : s.wg = 0
  hml : s.mtasks.length = 1
  hcompn : s.poolCloseCount = (if s.comp = .waiting then 0 else 1)
  hpec : s.pe.closed = true ↔ s.comp = .closed
  hbal : ∀ m : MPh E, s.mtasks[0]? = some m →
    s.consumed ++ s.out ++ holdP m ++ s.pe.buf ++
      (if s.comp = .waiting then [pcErr] else []) = [pcErr]
  hocl : s.outClosed = true → s.mtasks[0]? = some .done
  hfin2 : s.sfin = true → s.out = [] ∧ s.outClosed = true
  hqf : s.hq = true → s.sdone = true ∨ s.sfin = true
  hsd : s.sdone = true → s.consumed ≠ []
  hdone : s.mtasks[0]? = some .done → s.pe.closed = true ∧ s.pe.buf = []
  hfq : s.sfin = true → s.hq = true

theorem invZ_init (pcErr : Option E) (c0 : σ) : InvZ pcErr (pInit c0 0 : PState σ E) := by
  refine ⟨rfl, rfl, rfl, rfl, rfl, by simp [pInit], ?_, ?_, ?_, ?_, ?_, ?_, ?_⟩
  · intro m hm
    simp [pInit] at hm
    rw [← hm]
    rfl
  · intro h
    simp [pInit] at h
  · intro h
    simp [pInit] at h
  · intro h
    simp [pInit] at h
  · intro h
    simp [pInit] at h
  · intro h
    simp [pInit] at h
  · intro h
    simp [pInit] at h

theorem invZ_step (Consume : σ → Option E → Bool × σ) (next : Nat → Nat → Bool × Option E)
    (wclose : Nat → Option E) (pcErr : Option E)
    (x y : PState σ E) (hx : InvZ pcErr x)
    (hxy : PStep Consume next wclose pcErr x y) : InvZ pcErr y := by
  obtain ⟨hw, hc, hwgz, hml, hcompn, hpec, hbal, hocl, hfin2, hqf, hsd, hdone, hfq⟩ := hx
  have hm0ex : ∃ m : MPh E, x.mtasks[0]? = some m :=
    ⟨_, List.getElem?_eq_getElem (by omega)⟩
  have hlen0 : x.chans.length = 0 := by rw [hc]; rfl
  have hml0 : 0 < x.mtasks.length := by omega
  cases hxy with
  | wStop i k h1 h2 => rw [hw] at h1; simp at h1
  | wNext i k ok e h1 h2 h3 => rw [hw] at h1; simp at h1
  | wSend i k ok e ch h1 h2 h3 => rw [hw] at h1; simp at h1
  | wCloseSend i ch h1 h2 h3 => rw [hw] at h1; simp at h1
  | wCloseChan i ch h1 h2 => rw [hw] at h1; simp at h1
  | compClose h1 h2 h3 =>
    refine ⟨hw, hc, hwgz, hml, ?_, ?_, ?_, hocl, hfin2, hqf, hsd, ?_, hfq⟩
    · show x.poolCloseCount + 1 = if CompPhase.sent = CompPhase.waiting then 0 else 1
      rw [hcompn, h1]
      simp
    · show x.pe.closed = true ↔ CompPhase.sent = CompPhase.closed
      rw [hpec, h1]
      simp
    · intro m hm
      have hb := hbal m hm
      rw [h1] at hb
      show x.consumed ++ x.out ++ holdP m ++ (x.pe.buf ++ [pcErr]) ++
        (if CompPhase.sent = CompPhase.waiting then [pcErr] else []) = [pcErr]
      simpa [List.append_assoc] using hb
    · intro hm
      exfalso
      have hcl := (hdone hm).1
      rw [hpec, h1] at hcl
      exact absurd hcl (by simp)
  | compCloseChan h1 =>
    refine ⟨hw, hc, hwgz, hml, ?_, ?_, ?_, hocl, hfin2, hqf, hsd, ?_, hfq⟩
    · show x.poolCloseCount = if CompPhase.closed = CompPhase.waiting then 0 else 1
      rw [hcompn, h1]
      simp
    · show true = true ↔ CompPhase.closed = CompPhase.closed
      simp
    · intro m hm
      have hb := hbal m hm
      rw [h1] at hb
      show x.consumed ++ x.out ++ holdP m ++ x.pe.buf ++
        (if CompPhase.closed = CompPhase.waiting then [pcErr] else []) = [pcErr]
      simpa [List.append_assoc] using hb
    · intro hm
      exact ⟨rfl, (hdone hm).2⟩
  | mReadW i ch v rest h1 h2 h3 => rw [hc] at h2; simp at h2
  | mFinishW i ch h1 h2 h3 h4 => rw [hc] at h2; simp at h2
  | mReadP v rest h1 h2 =>
    rw [hlen0] at h1
    refine ⟨hw, hc, hwgz, by simpa using hml, hcompn, hpec, ?_, ?_, hfin2, hqf, hsd, ?_, hfq⟩
    · intro m hm
      rw [hlen0, List.getElem?_set_self hml0] at hm
      cases hm
      have hb := hbal .wait h1
      rw [h2] at hb
      show x.consumed ++ x.out ++ holdP (.hold v) ++ rest ++
        (if x.comp = CompPhase.waiting then [pcErr] else []) = [pcErr]
      simpa [holdP, List.append_assoc] using hb
    · intro hcl
      exfalso
      have hd := hocl hcl
      rw [h1] at hd
      simp at hd
    · intro hm
      exfalso
      rw [hlen0, List.getElem?_set_self hml0] at hm
      simp at hm
  | mFinishP h1 h2 h3 =>
    rw [hlen0] at h1
    refine ⟨hw, hc, hwgz, by simpa using hml, hcompn, hpec, ?_, ?_, hfin2, hqf, hsd, ?_, hfq⟩
    · intro m hm
      rw [hlen0, List.getElem?_set_self hml0] at hm
      cases hm
      have hb := hbal .wait h1
      show x.consumed ++ x.out ++ holdP .done ++ x.pe.buf ++
        (if x.comp = CompPhase.waiting then [pcErr] else []) = [pcErr]
      simpa [holdP] using hb
    · intro _
      rw [hlen0, List.getElem?_set_self hml0]
    · intro _
      exact ⟨h3, h2⟩
  | mPollStop i v h1 h2 =>
    exfalso
    have hi0 : i = 0 := by
      have := (List.getElem?_eq_some.mp h1).1
      omega
    subst hi0
    rcases hqf h2 with hsd' | hsf'
    · have hne := hsd hsd'
      have hb := hbal _ h1
      have hlenb := congrArg List.length hb
      simp [holdP] at hlenb
      rcases hx : x.consumed with _ | ⟨a, as⟩
      · exact hne hx
      · rw [hx] at hlenb
        simp at hlenb
        omega
    · have hd := hocl (hfin2 hsf').2
      rw [h1] at hd
      simp at hd
  | mPollPass i v h1 h2 =>
    have hi0 : i = 0 := by
      have := (List.getElem?_eq_some.mp h1).1
      omega
    subst hi0
    refine ⟨hw, hc, hwgz, by simpa using hml, hcompn, hpec, ?_, ?_, hfin2, hqf, hsd, ?_, hfq⟩
    · intro m hm
      rw [List.getElem?_set_self hml0] at hm
      cases hm
      have hb := hbal _ h1
      show x.consumed ++ x.out ++ holdP (.fwd v) ++ x.pe.buf ++
        (if x.comp = CompPhase.waiting then [pcErr] else []) = [pcErr]
      simpa [holdP] using hb
    · intro hcl
      exfalso
      have hd := hocl hcl
      rw [h1] at hd
      simp at hd
    · intro hm
      exfalso
      rw [List.getElem?_set_self hml0] at hm
      simp at hm
  | mFwd i v h1 h2 =>
    have hi0 : i = 0 := by
      have := (List.getElem?_eq_some.mp h1).1
      omega
    subst hi0
    refine ⟨hw, hc, hwgz, by simpa using hml, hcompn, hpec, ?_, ?_, ?_, hqf, hsd, ?_, hfq⟩
    · intro m hm
      rw [List.getElem?_set_self hml0] at hm
      cases hm
      have hb := hbal _ h1
      show x.consumed ++ (x.out ++ [v]) ++ holdP .wait ++ x.pe.buf ++
        (if x.comp = CompPhase.waiting then [pcErr] else []) = [pcErr]
      simpa [holdP, List.append_assoc] using hb
    · intro hcl
      exfalso
      have hd := hocl hcl
      rw [h1] at hd
      simp at hd
    · intro hsf
      exfalso
      have hd := hocl (hfin2 hsf).2
      rw [h1] at hd
      simp at hd
    · intro hm
      exfalso
      rw [List.getElem?_set_self hml0] at hm
      simp at hm
  | mCloseOut h1 h2 =>
    obtain ⟨m0, hm0⟩ := hm0ex
    have hm0d : m0 = .done := h1 m0 (List.getElem?_mem hm0)
    refine ⟨hw, hc, hwgz, hml, hcompn, hpec, hbal, ?_, ?_, hqf, hsd, hdone, hfq⟩
    · intro _
      rw [hm0, hm0d]
    · intro hsf
      exact ⟨(hfin2 hsf).1, rfl⟩
  | sDiscard v rest h1 h2 h3 =>
    exfalso
    obtain ⟨m0, hm0⟩ := hm0ex
    have hne := hsd h2
    have hb := hbal m0 hm0
    rw [h3] at hb
    have hlenb := congrArg List.length hb
    simp at hlenb
    rcases hx : x.consumed with _ | ⟨a, as⟩
    · exact hne hx
    · rw [hx] at hlenb
      simp at hlenb
      omega
  | sAccept v rest c' h1 h2 h3 h4 =>
    refine ⟨hw, hc, hwgz, hml, hcompn, hpec, ?_, hocl, ?_, ?_, ?_, hdone, hfq⟩
    · intro m hm
      have hb := hbal m hm
      rw [h3] at hb
      show (x.consumed ++ [v]) ++ rest ++ holdP m ++ x.pe.buf ++
        (if x.comp = CompPhase.waiting then [pcErr] else []) = [pcErr]
      simpa [List.append_assoc] using hb
    · intro hsf
      exfalso
      have := (hfin2 hsf).1
      rw [h3] at this
      simp at this
    · intro hq'
      rcases hqf hq' with h' | h'
      · rw [h2] at h'
        exact absurd h' (by simp)
      · exact Or.inr h'
    · intro _
      simp
  | sReject v rest c' h1 h2 h3 h4 =>
    refine ⟨hw, hc, hwgz, hml, hcompn, hpec, ?_, hocl, ?_, ?_, ?_, hdone, fun _ => rfl⟩
    · intro m hm
      have hb := hbal m hm
      rw [h3] at hb
      show (x.consumed ++ [v]) ++ rest ++ holdP m ++ x.pe.buf ++
        (if x.comp = CompPhase.waiting then [pcErr] else []) = [pcErr]
      simpa [List.append_assoc] using hb
    · intro hsf
      exfalso
      have := (hfin2 hsf).1
      rw [h3] at this
      simp at this
    · intro _
      exact Or.inl rfl
    · intro _
      simp
  | sFinish h1 h2 h3 =>
    refine ⟨hw, hc, hwgz, hml, hcompn, hpec, hbal, hocl, ?_, ?_, hsd, hdone, ?_⟩
    · intro _
      exact ⟨h2, h3⟩
    · intro _
      exact Or.inr rfl
    · intro _
      rfl
  | ecSend h1 h2 =>
    exact ⟨hw, hc, hwgz, hml, hcompn, hpec, hbal, hocl, hfin2, hqf, hsd, hdone, hfq⟩
  | ecClose h1 h2 =>
    exact ⟨hw, hc, hwgz, hml, hcompn, hpec, hbal, hocl, hfin2, hqf, hsd, hdone, hfq⟩
  | bRecvVal h1 h2 h3 =>
    exact ⟨hw, hc, hwgz, hml, hcompn, hpec, hbal, hocl, hfin2, hqf, hsd, hdone, hfq⟩
  | bRecvClosed h1 h2 h3 =>
    exact ⟨hw, hc, hwgz, hml, hcompn, hpec, hbal, hocl, hfin2, hqf, hsd, hdone, hfq⟩

theorem invZ_reach (Consume : σ → Option E → Bool × σ) (next : Nat → Nat → Bool × Option E)
    (wclose : Nat → Option E) (pcErr : Option E) (c0 : σ) (s : PState σ E)
    (h : PReach Consume next wclose pcErr (pInit c0 0) s) : InvZ pcErr s :=
  Errmux.reach_invariant h (invZ_init pcErr c0)
    (fun x y hx hxy => invZ_step Consume next wclose pcErr x y hx hxy)

/-- C9: `Job.Run(consumer, 0)` spawns no worker loops; in every complete
run (a reachable state with no enabled action) the completion goroutine
has immediately called the pool's `Close` (exactly once), the consumer
has observed exactly one value — the pool's `Close()` error — the merged
stream has closed, the handler's consume loop has finished, and the
finished signal has fired, so `Wait` returns. -/
theorem run_zero_workers (Consume : σ → Option E → Bool × σ)
    (next : Nat → Nat → Bool × Option E) (wclose : Nat → Option E) (pcErr : Option E)
    (c0 : σ) (s : PState σ E)
    (h : PReach Consume next wclose pcErr (pInit c0 0) s)
    (hterm : PTerminal Consume next wclose pcErr s) :
    s.consumed = [pcErr] ∧ s.poolCloseCount = 1 ∧ s.outClosed = true ∧ s.sfin = true ∧
    s.hq = true := by
  obtain ⟨hw, hc, hwgz, hml, hcompn, hpec, hbal, hocl, hfin2, hqf, hsd, hdone, hfq⟩ :=
    invZ_reach Consume next wclose pcErr c0 s h
  have hlen0 : s.chans.length = 0 := by rw [hc]; rfl
  have hml0 : 0 < s.mtasks.length := by omega
  obtain ⟨m0, hm0⟩ : ∃ m : MPh E, s.mtasks[0]? = some m :=
    ⟨_, List.getElem?_eq_getElem hml0⟩
  have hout0 : s.out = [] := by
    cases hox : s.out with
    | nil => rfl
    | cons v rest =>
      exfalso
      have hsf : s.sfin = false := by
        cases hsfx : s.sfin
        · rfl
        · have h0 := (hfin2 hsfx).1
          rw [hox] at h0
          simp at h0
      cases hsdx : s.sdone
      · rcases hcv : Consume s.cons v with ⟨ok, c'⟩
        cases ok
        · exact hterm _ (PStep.sReject s v rest c' hsf hsdx hox hcv)
        · exact hterm _ (PStep.sAccept s v rest c' hsf hsdx hox hcv)
      · exact hterm _ (PStep.sDiscard s v rest hsf hsdx hox)
  have hcompw : s.comp ≠ .waiting := by
    intro hcw
    have hpeb : s.pe.buf = [] := by
      have hb := hbal m0 hm0
      rw [hcw] at hb
      have hlenb := congrArg List.length hb
      simp at hlenb
      have hplen : s.pe.buf.length = 0 := by omega
      exact List.length_eq_zero.mp hplen
    exact hterm _ (PStep.compClose s hcw hwgz (by rw [hpeb]; simp))
  have hcompc : s.comp = .closed := by
    cases hcx : s.comp
    · exact absurd hcx hcompw
    · exact absurd (PStep.compCloseChan s hcx) (hterm _)
    · rfl
  have hm0d : m0 = .done := by
    cases hmx : m0 with
    | wait =>
      rw [hmx] at hm0
      cases hpb : s.pe.buf with
      | nil =>
        have hclp : s.pe.closed = true := hpec.mpr hcompc
        exact absurd (PStep.mFinishP s (by rw [hlen0]; exact hm0) hpb hclp) (hterm _)
      | cons v rest =>
        exact absurd (PStep.mReadP s v rest (by rw [hlen0]; exact hm0) hpb) (hterm _)
    | hold v =>
      rw [hmx] at hm0
      cases hqx : s.hq
      · exact absurd (PStep.mPollPass s 0 v hm0 hqx) (hterm _)
      · exact absurd (PStep.mPollStop s 0 v hm0 hqx) (hterm _)
    | fwd v =>
      rw [hmx] at hm0
      refine absurd (PStep.mFwd s 0 v hm0 ?_) (hterm _)
      rw [hout0]
      simpa using hml0
    | done => rfl
  rw [hm0d] at hm0
  have hoc : s.outClosed = true := by
    cases hocx : s.outClosed
    · refine absurd (PStep.mCloseOut s ?_ hocx) (hterm _)
      intro m hm
      obtain ⟨i, hi⟩ := List.mem_iff_getElem?.mp hm
      have hi0 : i = 0 := by
        have := (List.getElem?_eq_some.mp hi).1
        omega
      subst hi0
      rw [hm0] at hi
      exact (Option.some.inj hi).symm
    · rfl
  have hsf : s.sfin = true := by
    cases hsfx : s.sfin
    · exact absurd (PStep.sFinish s hsfx hout0 hoc) (hterm _)
    · rfl
  have hpb : s.pe.buf = [] := (hdone hm0).2
  have hb := hbal .done hm0
  rw [hout0, hpb, hcompc] at hb
  refine ⟨by simpa [holdP] using hb, ?_, hoc, hsf, hfq hsf⟩
  rw [hcompn, hcompc]
  simp

/-- C9 witness instance: every task of every (nonexistent) worker
succeeds silently. -/
def next0 : Nat → Nat → Bool × Option Nat := fun _ _ => (true, none)

/-- C9 witness instance: nil worker close errors. -/
def wclose0 : Nat → Option Nat := fun _ => none

/-- The complete zero-worker run with pool close error `some 7`. -/
def zEnd : PState (Errmux.DefaultConsumer Nat) Nat :=
  ⟨false, [], [], ⟨[], true⟩, 0, .closed, 1, [.done], [], true, true, true, true,
   ⟨some 7, true⟩, [some 7], true, true, true, .done⟩

/-- C9 witness: the concrete zero-worker run, driven to completion. -/
theorem run_zero_workers_witness :
    zEnd.consumed = [some 7] ∧ zEnd.poolCloseCount = 1 ∧ zEnd.outClosed = true ∧
    zEnd.sfin = true ∧ zEnd.hq = true := by
  have hreach : PReach Errmux.DefaultConsumer.Consume next0 wclose0 (some 7)
      (pInit Errmux.NewDefaultConsumer 0) zEnd := by
    refine Relation.ReflTransGen.head
      (PStep.compClose _ rfl rfl (by decide)) ?_
    refine Relation.ReflTransGen.head
      (PStep.compCloseChan _ rfl) ?_
    refine Relation.ReflTransGen.head
      (PStep.mReadP _ (some 7) [] rfl rfl) ?_
    refine Relation.ReflTransGen.head
      (PStep.mPollPass _ 0 (some 7) rfl rfl) ?_
    refine Relation.ReflTransGen.head
      (PStep.mFwd _ 0 (some 7) rfl (by decide)) ?_
    refine Relation.ReflTransGen.head
      (PStep.mFinishP _ rfl rfl rfl) ?_
    refine Relation.ReflTransGen.head
      (PStep.sReject _ (some 7) [] ⟨some 7, true⟩ rfl rfl rfl (by decide)) ?_
    refine Relation.ReflTransGen.head
      (PStep.mCloseOut _ (by intro m hm; simp [pInit] at hm; exact hm) rfl) ?_
    refine Relation.ReflTransGen.head
      (PStep.sFinish _ rfl rfl rfl) ?_
    refine Relation.ReflTransGen.head
      (PStep.ecSend _ rfl rfl) ?_
    refine Relation.ReflTransGen.head
      (PStep.bRecvVal _ rfl rfl rfl) ?_
    exact Relation.ReflTransGen.head
      (PStep.ecClose _ rfl rfl) Relation.ReflTransGen.refl
  have hterm : PTerminal Errmux.DefaultConsumer.Consume next0 wclose0 (some 7) zEnd := by
    intro t hstep
    cases hstep with
    | wStop i k h1 h2 => simp [zEnd] at h1
    | wNext i k ok e h1 h2 h3 => simp [zEnd] at h1
    | wSend i k ok e ch h1 h2 h3 => simp [zEnd] at h1
    | wCloseSend i ch h1 h2 h3 => simp [zEnd] at h1
    | wCloseChan i ch h1 h2 => simp [zEnd] at h1
    | compClose h1 h2 h3 => simp [zEnd] at h1
    | compCloseChan h1 => simp [zEnd] at h1
    | mReadW i ch v rest h1 h2 h3 => simp [zEnd] at h2
    | mFinishW i ch h1 h2 h3 h4 => simp [zEnd] at h2
    | mReadP v rest h1 h2 => simp [zEnd] at h2
    | mFinishP h1 h2 h3 => simp [zEnd, getElem?_one] at h1
    | mPollStop i v h1 h2 => simp [zEnd, getElem?_one] at h1
    | mPollPass i v h1 h2 => simp [zEnd, getElem?_one] at h1
    | mFwd i v h1 h2 => simp [zEnd, getElem?_one] at h1
    | mCloseOut h1 h2 => simp [zEnd] at h2
    | sDiscard v rest h1 h2 h3 => simp [zEnd] at h1
    | sAccept v rest c' h1 h2 h3 h4 => simp [zEnd] at h1
    | sReject v rest c' h1 h2 h3 h4 => simp [zEnd] at h1
    | sFinish h1 h2 h3 => simp [zEnd] at h1
    | ecSend h1 h2 => simp [zEnd] at h2
    | ecClose h1 h2 => simp [zEnd] at h2
    | bRecvVal h1 h2 h3 => simp [zEnd] at h1
    | bRecvClosed h1 h2 h3 => simp [zEnd] at h1
  exact run_zero_workers Errmux.DefaultConsumer.Consume next0 wclose0 (some 7)
    Errmux.NewDefaultConsumer zEnd hreach hterm

end Pipeline
